import Mathlib

/-!
Verification of the DAMA preference-alignment and adaptive-DPO-loss core
(`llava/train/train_dpo.py`).

The sequence aligner is `difflib.SequenceMatcher(None, a, b)` (no junk
predicate, `autojunk=True`, the Python defaults), followed by
`get_match_info`, `complete_modification_spans`, and `get_diff_ids`.
Token sequences are embedded as `List Int`, indices as `Nat`.
-/

namespace DAMA

/-! ### difflib.SequenceMatcher embedding

`__chain_b` builds `b2j`, mapping each element of `b` to the ascending list
of its positions in `b` (the dict is populated by a single left-to-right
pass with `setdefault`/`append`, so each list is ascending).  With
`isjunk=None` the junk set `bjunk` is empty; with `autojunk=True` (default),
when `len(b) >= 200` every element occurring more than `len(b) // 100 + 1`
times is "popular" and its key is deleted from `b2j`. -/

def b2jRaw (b : List Int) (x : Int) : List Nat :=
  (List.range b.length).filter (fun j => b.get? j = some x)

def popularCut (n : Nat) : Nat := n / 100 + 1

def isPopular (b : List Int) (x : Int) : Bool :=
  decide (200 ≤ b.length) && decide (popularCut b.length < (b2jRaw b x).length)

def b2j (b : List Int) (x : Int) : List Nat :=
  if isPopular b x then [] else b2jRaw b x

/-- `a[i] == b[j]` as value comparison; `False` when either index is out of
range (Python would raise, but every use below is guarded to in-range
indices). -/
def idxEq (a b : List Int) (i j : Nat) : Bool :=
  match a.get? i, b.get? j with
  | some x, some y => x == y
  | _, _ => false

/-- Python's `j2len.get(j - 1, 0)`: at `j = 0` the consulted key is `-1`,
which is never present, so the default `0` is returned. -/
def j2lenGet (f : Nat → Nat) (j : Nat) : Nat :=
  if j = 0 then 0 else f (j - 1)

/-- One iteration of `for j in b2j.get(a[i], nothing)` inside
`find_longest_match`: `k = newj2len[j] = j2len.get(j-1, 0) + 1`, and the
running best is replaced when `k > bestsize` (giving
`besti, bestj, bestsize = i-k+1, j-k+1, k`). The accumulator carries
`newj2len` (a total function defaulting to 0, like the Python dict) and the
best triple. -/
def processJ (i : Nat) (old : Nat → Nat) (acc : (Nat → Nat) × (Nat × Nat × Nat))
    (j : Nat) : (Nat → Nat) × (Nat × Nat × Nat) :=
  let k := j2lenGet old j + 1
  (fun jj => if jj = j then k else acc.1 jj,
   if acc.2.2.2 < k then (i + 1 - k, j + 1 - k, k) else acc.2)

/-- One iteration of `for i in range(alo, ahi)`: the inner loop runs over the
ascending position list `b2j[a[i]]`, where `if j < blo: continue` and
`if j >= bhi: break` together restrict it to `blo <= j < bhi` (the list is
ascending, so `break` removes exactly the tail `>= bhi`).  `j2len = newj2len`
afterwards. -/
def processRow (a b : List Int) (blo bhi : Nat)
    (st : (Nat → Nat) × (Nat × Nat × Nat)) (i : Nat) :
    (Nat → Nat) × (Nat × Nat × Nat) :=
  let js := (b2j b (a.getD i 0)).filter (fun j => decide (blo ≤ j) && decide (j < bhi))
  js.foldl (processJ i st.1) ((fun _ => 0), st.2)

/-- The dynamic-programming loop of `find_longest_match`, started from
`besti, bestj, bestsize = alo, blo, 0` and an empty `j2len`. -/
def flmLoop (a b : List Int) (alo ahi blo bhi : Nat) : Nat × Nat × Nat :=
  ((List.range' alo (ahi - alo)).foldl (processRow a b blo bhi)
    ((fun _ => 0), (alo, blo, 0))).2

/-- First extension loop of `find_longest_match`:
`while besti > alo and bestj > blo and not isbjunk(b[bestj-1]) and
a[besti-1] == b[bestj-1]`.  With `isjunk=None` the set `bjunk` is empty, so
`not isbjunk(...)` is always true and is omitted. -/
def extendBack (a b : List Int) (alo blo : Nat) (i j k : Nat) : Nat × Nat × Nat :=
  if h : alo < i ∧ blo < j ∧ idxEq a b (i - 1) (j - 1) then
    extendBack a b alo blo (i - 1) (j - 1) (k + 1)
  else (i, j, k)
termination_by i - alo
decreasing_by omega

/-- Second extension loop:
`while besti+bestsize < ahi and bestj+bestsize < bhi and
not isbjunk(b[bestj+bestsize]) and a[besti+bestsize] == b[bestj+bestsize]`,
again with the vacuous junk test omitted. -/
def extendFwd (a b : List Int) (ahi bhi : Nat) (i j k : Nat) : Nat :=
  if h : i + k < ahi ∧ j + k < bhi ∧ idxEq a b (i + k) (j + k) then
    extendFwd a b ahi bhi i j (k + 1)
  else k
termination_by ahi - (i + k)
decreasing_by omega

/-- `SequenceMatcher.find_longest_match(alo, ahi, blo, bhi)`.  The final two
`while` loops of the original extend through junk elements; `bjunk` is empty
here (`isjunk=None`), so they never fire and are omitted. -/
def find_longest_match (a b : List Int) (alo ahi blo bhi : Nat) : Nat × Nat × Nat :=
  let best := flmLoop a b alo ahi blo bhi
  let ext := extendBack a b alo blo best.1 best.2.1 best.2.2
  (ext.1, ext.2.1, extendFwd a b ahi bhi ext.1 ext.2.1 ext.2.2)


/-- `get_matching_blocks`, recursive block decomposition.  difflib keeps a
LIFO queue of regions, collects the nonempty longest matches, and finally
sorts the list; every block found in a region lies inside that region and
the two sub-regions sit strictly left/right of the block in both
coordinates, so the sorted list equals this in-order (left, block, right)
recursion.  The region-validity test `hb` is an invariant of the traversal
(`find_longest_match_bounds` below proves it always holds when the size is
nonzero); it is carried in the definition only to justify termination. -/
def matchingBlocksRec (a b : List Int) (alo ahi blo bhi : Nat) : List (Nat × Nat × Nat) :=
  if hk : (find_longest_match a b alo ahi blo bhi).2.2 = 0 then []
  else if hb : alo ≤ (find_longest_match a b alo ahi blo bhi).1 ∧
      blo ≤ (find_longest_match a b alo ahi blo bhi).2.1 ∧
      (find_longest_match a b alo ahi blo bhi).1 +
        (find_longest_match a b alo ahi blo bhi).2.2 ≤ ahi ∧
      (find_longest_match a b alo ahi blo bhi).2.1 +
        (find_longest_match a b alo ahi blo bhi).2.2 ≤ bhi then
    (if alo < (find_longest_match a b alo ahi blo bhi).1 ∧
        blo < (find_longest_match a b alo ahi blo bhi).2.1 then
      matchingBlocksRec a b alo (find_longest_match a b alo ahi blo bhi).1
        blo (find_longest_match a b alo ahi blo bhi).2.1 else []) ++
    [find_longest_match a b alo ahi blo bhi] ++
    (if (find_longest_match a b alo ahi blo bhi).1 +
          (find_longest_match a b alo ahi blo bhi).2.2 < ahi ∧
        (find_longest_match a b alo ahi blo bhi).2.1 +
          (find_longest_match a b alo ahi blo bhi).2.2 < bhi then
      matchingBlocksRec a b
        ((find_longest_match a b alo ahi blo bhi).1 +
          (find_longest_match a b alo ahi blo bhi).2.2) ahi
        ((find_longest_match a b alo ahi blo bhi).2.1 +
          (find_longest_match a b alo ahi blo bhi).2.2) bhi else [])
  else []
termination_by (ahi - alo) + (bhi - blo)
decreasing_by
  · omega
  · omega

/-- The "collapse adjacent equal blocks" loop at the end of
`get_matching_blocks`: `cur` is the running `(i1, j1, k1)`, started at
`(0, 0, 0)`; adjacent blocks merge, and `cur` is flushed when nonempty. -/
def collapseGo (cur : Nat × Nat × Nat) : List (Nat × Nat × Nat) → List (Nat × Nat × Nat)
  | [] => if cur.2.2 ≠ 0 then [cur] else []
  | x :: rest =>
    if cur.1 + cur.2.2 = x.1 ∧ cur.2.1 + cur.2.2 = x.2.1 then
      collapseGo (cur.1, cur.2.1, cur.2.2 + x.2.2) rest
    else (if cur.2.2 ≠ 0 then [cur] else []) ++ collapseGo x rest

/-- `SequenceMatcher.get_matching_blocks()`: collapsed blocks followed by
the sentinel `(len(a), len(b), 0)`. -/
def get_matching_blocks (a b : List Int) : List (Nat × Nat × Nat) :=
  collapseGo (0, 0, 0) (matchingBlocksRec a b 0 a.length 0 b.length) ++
    [(a.length, b.length, 0)]

/-- `get_match_info(a_seq, b_seq, min_match_size)`: drop non-sentinel blocks
shorter than `min_match_size`, keep the sentinel, and project each block
`(i, j, size)` to the half-open ranges `(i, i+size)` / `(j, j+size)`.
`get_matching_blocks` always ends with the sentinel, so `mb[-1]` is total
(the `getLastD` default is never used). -/
def get_match_info (a b : List Int) (min_match_size : Nat) :
    List (Nat × Nat) × List (Nat × Nat) :=
  let mb := get_matching_blocks a b
  let mbf := mb.dropLast.filter (fun m => decide (min_match_size ≤ m.2.2)) ++
    [mb.getLastD (a.length, b.length, 0)]
  (mbf.map (fun m => (m.1, m.1 + m.2.2)), mbf.map (fun m => (m.2.1, m.2.1 + m.2.2)))

/-- Loop body of `complete_modification_spans`: at each match `m` emit the
pending gap `(i, j)` and `m` itself; between two matches the next gap runs
from the end of the current match to the start of the next.  (The final
Python assignment `i, j = matches[-1][1], length` is dead: the loop ends.) -/
def cmsGo : Nat → Nat → List (Nat × Nat) → List (Nat × Nat)
  | _, _, [] => []
  | i, j, [m] => [(i, j), m]
  | i, j, m :: m1 :: rest => (i, j) :: m :: cmsGo m.2 m1.1 (m1 :: rest)

/-- `complete_modification_spans(matches, length)` (`matches` is a Lean
keyword, so the parameter is named `ms`).  Python indexes `matches[0]`
unconditionally (an empty list would raise); all callers pass the
sentinel-terminated match list, which is never empty. -/
def complete_modification_spans (ms : List (Nat × Nat)) (length : Nat) :
    List (Nat × Nat) :=
  match ms with
  | [] => []
  | m0 :: _ => cmsGo 0 m0.1 ms

def span_not_empty (span : Nat × Nat) : Bool := span.1 != span.2

/-- `generate_modification_mapping_impl` (with printing disabled): walk the
two span lists in lockstep, skip odd indices (matched spans), and insert
`mod_map[a_span] = b_span` when both sides are non-empty.  The Python dict
is modelled as the insertion-ordered association list: for the aligner's
outputs the even-indexed spans are strictly increasing, so keys are
distinct and `keys()`/`values()` coincide with the two projections.  The
`assert len(a_spans) == len(b_spans)` always holds for the aligner's
outputs (both have twice the match-list length); `zip` realises it. -/
def generate_modification_mapping_impl (a_spans b_spans : List (Nat × Nat)) :
    List ((Nat × Nat) × (Nat × Nat)) :=
  (a_spans.zip b_spans).enum.filterMap (fun p =>
    if p.1 % 2 = 1 then none
    else if span_not_empty p.2.1 ∧ span_not_empty p.2.2 then some p.2 else none)

def generate_modification_mapping (a b : List Int) (min_match_size : Nat) :
    List ((Nat × Nat) × (Nat × Nat)) :=
  let m := get_match_info a b min_match_size
  generate_modification_mapping_impl (complete_modification_spans m.1 a.length)
    (complete_modification_spans m.2 b.length)

/-- `spans2ids`: concatenate `list(range(span[0], span[1]))` over the spans. -/
def spans2ids (spans : List (Nat × Nat)) : List Nat :=
  spans.foldl (fun ids span => ids ++ List.range' span.1 (span.2 - span.1)) []

/-- Python `sorted(set(xs))`. -/
def sortedSet (xs : List Nat) : List Nat :=
  xs.dedup.mergeSort (fun x y => decide (x ≤ y))

/-- `get_diff_ids(a_seq, b_seq, min_match_size)`. -/
def get_diff_ids (a b : List Int) (min_match_size : Nat) : List Nat × List Nat :=
  let mod_map := generate_modification_mapping a b min_match_size
  (sortedSet (spans2ids (mod_map.map Prod.fst)),
   sortedSet (spans2ids (mod_map.map Prod.snd)))

/-! ### The adaptive DPO loss (`dpo_loss`, lines 1220-1291)

Tensors are embedded as `List ℝ`; the model is the single-process case
(`world_size == 1`, where `all_gather_if_needed` is the identity, so the
gathered `A` is `A_gap` itself).  The random draw of the sampling step is
an input (`sample_index`): `torch.multinomial(..., replacement=False)`
yields distinct in-range indices (`MultinomialDraw`), while
`random.choices(range(n), k=...)` of the degenerate branch samples WITH
replacement (`ChoicesDraw`). -/

/-- `torch.nn.functional.sigmoid`. -/
noncomputable def sigmoid (x : ℝ) : ℝ := 1 / (1 + Real.exp (-x))

/-- The constant `0.0482190464911681` fed to `F.sigmoid` to build
`logits_mean` (the calibration constant K of the spec). -/
noncomputable def Kconst : ℝ := 0.0482190464911681

/-- `sample_num = int(weight_sample.numel() * (1 - 0.2))`.  In IEEE doubles
`1 - 0.2` is exactly the double nearest 0.8, and for any realistic size
(`n < 2^50`) `int(n * that)` equals `⌊4n/5⌋`: the relative error of the
product is `2^-54`, far below the distance from `0.8·n` to the next
integer. -/
def sample_num (n : Nat) : Nat := 4 * n / 5

/-- `one_hot_like = torch.zeros_like(weight_sample);
one_hot_like[sample_index] = 1`: ones at the listed indices (duplicate
indices assign 1 twice, which is idempotent). -/
def one_hot_like (n : Nat) (sample_index : List Nat) : List ℝ :=
  (List.range n).map (fun p => if p ∈ sample_index then (1 : ℝ) else 0)

/-- Contract of `torch.multinomial(weight_sample, sample_num,
replacement=False)`: `sample_num` pairwise-distinct indices into the
weight vector. -/
def MultinomialDraw (n : Nat) (idxs : List Nat) : Prop :=
  idxs.length = sample_num n ∧ idxs.Nodup ∧ ∀ p ∈ idxs, p < n

/-- Contract of `random.choices(range(len(weight_sample)), k=sample_num)`:
`sample_num` in-range indices, duplicates allowed (`choices` samples with
replacement). -/
def ChoicesDraw (n : Nat) (idxs : List Nat) : Prop :=
  idxs.length = sample_num n ∧ ∀ p ∈ idxs, p < n

/-- The preference logits term (lines 1244-1249): `pi_logratios -
ref_logratios`, where `ref_logratios` is replaced by the scalar 0 when
`reference_free` (so `logits = pi_logratios`). -/
noncomputable def dpo_logits (pc pr rc rr : List ℝ) (reference_free : Bool) : List ℝ :=
  if reference_free then List.zipWith (fun x y => x - y) pc pr
  else List.zipWith (fun x y => x - y) (List.zipWith (fun x y => x - y) pc pr)
    (List.zipWith (fun x y => x - y) rc rr)

structure DpoResult where
  losses : List ℝ
  chosen_rewards : List ℝ
  rejected_rewards : List ℝ
  beta_used : List ℝ
  global_mask : List ℝ
  beta_clamped : Nat
  A_sigmoid_average : ℝ
  this_ratio : List ℝ
  this_logits : List ℝ

/-- `dpo_loss` (single process, `type`-directed reading of lines 1244-1291):
`A_gap` is built from the raw reference log-probs regardless of
`reference_free`; the sampling weights are the Gaussian kernel
`exp(-0.5 (A - gap_mean)^2)`; `beta_clamped = (beta_used <= 1e-3).sum()`
counts before clamping and `clamp(min=1e-3)` is `max 1e-3`;
`losses = -F.logsigmoid(beta_used * logits)`. -/
noncomputable def dpo_loss (pc pr rc rr vc vr : List ℝ) (beta gap_mean : ℝ)
    (sample_index : List Nat) (reference_free : Bool) : DpoResult :=
  let logits := dpo_logits pc pr rc rr reference_free
  let this_logits := List.zipWith (fun x y => sigmoid (x - y) / sigmoid Kconst) vc vr
  let A := List.zipWith (fun x y => x + y)
    (List.zipWith (fun x y => x - y) (List.zipWith (fun x y => x - y) pc pr) rc) rr
  let A_sigmoid := A.map sigmoid
  let global_mask := one_hot_like A.length sample_index
  let A_sigmoid_average :=
    (sample_index.map (fun t => A_sigmoid.getD t 0)).sum / (sample_index.length : ℝ)
  let this_ratio := this_logits.map (fun x => x * (A_sigmoid_average / sigmoid gap_mean))
  let beta_usedPre := this_ratio.map (fun x => beta * x)
  let beta_used := beta_usedPre.map (fun x => max (1 / 1000) x)
  { losses := List.zipWith (fun bu g => -Real.log (sigmoid (bu * g))) beta_used logits
    chosen_rewards := List.zipWith (fun x y => beta * (x - y)) pc rc
    rejected_rewards := List.zipWith (fun x y => beta * (x - y)) pr rr
    beta_used := beta_used
    global_mask := global_mask
    beta_clamped := beta_usedPre.countP (fun x => decide (x ≤ 1 / 1000))
    A_sigmoid_average := A_sigmoid_average
    this_ratio := this_ratio
    this_logits := this_logits }

/-- The per-example sampling weights of `dpo_loss`
(`weight_sample = torch.exp(-0.5 * (A - mean).pow(2))`). -/
noncomputable def weight_sample (pc pr rc rr : List ℝ) (gap_mean : ℝ) : List ℝ :=
  (List.zipWith (fun x y => x + y)
    (List.zipWith (fun x y => x - y) (List.zipWith (fun x y => x - y) pc pr) rc) rr).map
    (fun x => Real.exp (-0.5 * (x - gap_mean) ^ 2))

/-! ### NaN propagation model for the loss (`Option ℝ`, `none` = IEEE NaN)

Arithmetic absorbs NaN; every comparison against a NaN is false. -/

def nadd : Option ℝ → Option ℝ → Option ℝ
  | some x, some y => some (x + y)
  | _, _ => none

def nsub : Option ℝ → Option ℝ → Option ℝ
  | some x, some y => some (x - y)
  | _, _ => none

def nmul : Option ℝ → Option ℝ → Option ℝ
  | some x, some y => some (x * y)
  | _, _ => none

noncomputable def ndiv : Option ℝ → Option ℝ → Option ℝ
  | some x, some y => some (x / y)
  | _, _ => none

noncomputable def nexp : Option ℝ → Option ℝ
  | some x => some (Real.exp x)
  | none => none

noncomputable def nsigmoid : Option ℝ → Option ℝ
  | some x => some (sigmoid x)
  | none => none

def nsum (xs : List (Option ℝ)) : Option ℝ := xs.foldl nadd (some 0)

/-- `weight_sample.sum() == 0.`: a NaN sum compares unequal to everything. -/
noncomputable def nEqZero : Option ℝ → Bool
  | some x => decide (x = 0)
  | none => false

/-- `torch.multinomial` input validation: it raises
`RuntimeError: probability tensor contains either inf, nan or element < 0`
if some weight is NaN, infinite or negative.  In this model `inf` cannot
arise (the weights are `exp(-0.5 t^2) ∈ (0, 1]`). -/
noncomputable def multinomialOk (ws : List (Option ℝ)) : Bool :=
  ws.all (fun w => match w with | some x => decide (0 ≤ x) | none => false)

/-- NaN-tracking model of the sampling portion of `dpo_loss` (lines
1257-1273): build `A_gap` and `weight_sample`, test the degenerate
condition, and either take the `random.choices` fallback or call
`torch.multinomial` (whose validation raises on a NaN weight).  Returns
the chosen `sample_index` together with the losses of line 1285 computed
from it, or the raised error.  `torch.inf in weight_sample` is always
false (no weight is `+inf`, and `NaN == inf` is false), so the degenerate
condition reduces to the sum test. -/
noncomputable def dpo_loss_nan (pc pr rc rr : List (Option ℝ)) (beta : ℝ)
    (gap_mean : Option ℝ) (fallback_draw multinomial_draw : List Nat) :
    Except String (List Nat × List (Option ℝ)) :=
  let logits := List.zipWith nsub pc pr
  let A := List.zipWith nadd (List.zipWith nsub (List.zipWith nsub pc pr) rc) rr
  let ws := A.map (fun x => nexp (nmul (some (-0.5)) (nmul (nsub x gap_mean) (nsub x gap_mean))))
  let lossesFrom := fun (draw : List Nat) =>
    let A_sigmoid_average := ndiv (nsum (draw.map (fun t => nsigmoid (A.getD t (some 0)))))
      (some (draw.length : ℝ))
    let betaUsed := ndiv A_sigmoid_average (nsigmoid gap_mean)
    List.zipWith (fun g _ => nsub (some 0) (nsigmoid (nmul betaUsed g))) logits A
  if nEqZero (nsum ws) then Except.ok (fallback_draw, lossesFrom fallback_draw)
  else if multinomialOk ws then Except.ok (multinomial_draw, lossesFrom multinomial_draw)
  else Except.error "probability tensor contains either inf, nan or element < 0"

/-! ### Collator token weights (`DataCollatorForDPODataset.__call__`) -/

/-- `row[idxs] = v`: item assignment at an index list (`List.set` ignores
out-of-range indices; the diff ids are proved in range below, matching
torch, where an out-of-range index would raise). -/
def setIndices (row : List ℝ) (idxs : List Nat) (v : ℝ) : List ℝ :=
  idxs.foldl (fun r p => r.set p v) row

/-- One iteration of the collator's per-example loop (lines 1073-1082):
`valid_w = w[1:]`, `valid_r = r[1:]`,
`r_mod, w_mod = get_diff_ids(valid_r, valid_w, min_match_size=3)`, then
boost the modified positions in the all-ones weight rows
(`torch.ones_like(ref_*_per_token_logp)` truncated to
`input_ids.size(1) - 1`, i.e. lengths `len(w) - 1` and `len(r) - 1`).
Returns the pair `(win_token_weight[idx], rej_token_weight[idx])`. -/
def token_weight_row (w r : List Int) (mod_token_weight : ℝ) : List ℝ × List ℝ :=
  let valid_w := w.drop 1
  let valid_r := r.drop 1
  let mods := get_diff_ids valid_r valid_w 3
  (setIndices (List.replicate (w.length - 1) 1) mods.2 mod_token_weight,
   setIndices (List.replicate (r.length - 1) 1) mods.1 mod_token_weight)

/-- `torch.nn.utils.rnn.pad_sequence(rows, batch_first=True,
padding_value=v)`: right-pad every row to the longest row. -/
def pad_sequence (rows : List (List ℝ)) (padding_value : ℝ) : List (List ℝ) :=
  rows.map (fun row =>
    row ++ List.replicate ((rows.map List.length).foldr max 0 - row.length) padding_value)

/-- `concate_pad(tensorA, tensorB, padding_value)` (lines 912-917). -/
def concate_pad (tensorA tensorB : List (List ℝ)) (padding_value : ℝ) : List (List ℝ) :=
  pad_sequence (tensorA ++ tensorB) padding_value

/-- `batch['concatenated_token_weight'] = concate_pad(win_token_weight,
rej_token_weight, 0)` (lines 1086-1087). -/
def concatenated_token_weight (win_token_weight rej_token_weight : List (List ℝ)) :
    List (List ℝ) :=
  concate_pad win_token_weight rej_token_weight 0

/-! ### Gap statistics tracker (`update_and_sync_tensor_mean`) -/

noncomputable def tmean (xs : List ℝ) : ℝ := xs.sum / (xs.length : ℝ)

/-- `torch.std` with its default unbiased correction (denominator `n-1`). -/
noncomputable def tstd (xs : List ℝ) : ℝ :=
  Real.sqrt ((xs.map (fun x => (x - tmean xs) ^ 2)).sum / ((xs.length : ℝ) - 1))

structure GapStats where
  gap_mean : ℝ
  gap_std : ℝ
  loss_mean : ℝ
  loss_std : ℝ

/-- `update_and_sync_tensor_mean(gap_local, loss_local, gamma=0.9)` in the
single-process case (`world_size == 1`: the `dist.all_reduce` branch is
skipped).  Each running scalar is updated in place by `mul_(gamma)` then
`add_(batch_stat, alpha=1-gamma)`, i.e. becomes
`running * gamma + batch_stat * (1 - gamma)`. -/
noncomputable def update_and_sync_tensor_mean (s : GapStats) (gap_local loss_local : List ℝ)
    (gamma : ℝ) : GapStats :=
  { gap_mean := s.gap_mean * gamma + tmean gap_local * (1 - gamma)
    gap_std := s.gap_std * gamma + tstd gap_local * (1 - gamma)
    loss_mean := s.loss_mean * gamma + tmean loss_local * (1 - gamma)
    loss_std := s.loss_std * gamma + tstd loss_local * (1 - gamma) }

/-! ### Auxiliary predicates and functions used by the theorems -/

/-- `BestOk alo blo bhi r x`: the DP best triple is either still the
initial `(alo, blo, 0)` or lies inside the region, with rows below `r`. -/
def BestOk (alo blo bhi r : Nat) (x : Nat × Nat × Nat) : Prop :=
  x = (alo, blo, 0) ∨
    (alo ≤ x.1 ∧ blo ≤ x.2.1 ∧ x.1 + x.2.2 ≤ r ∧ x.2.1 + x.2.2 ≤ bhi)

/-- Invariant of the DP loop state: `j2len` entries are bounded by the
number of processed rows and carry their column bounds, and the best
triple satisfies `BestOk` (`r` is the next row to process). -/
def StInv (alo blo bhi r : Nat) (st : (Nat → Nat) × (Nat × Nat × Nat)) : Prop :=
  (∀ jj, st.1 jj ≤ r - alo ∧
    (st.1 jj ≠ 0 → blo ≤ jj ∧ jj < bhi ∧ st.1 jj ≤ jj + 1 - blo)) ∧
  BestOk alo blo bhi r st.2

/-- The length of the run of consecutive positions `..., (i-1, j-1), (i, j)`
matched through the purged index `b2j` when both sequences are `c` — the
value the DP loop's `j2len` tracks at column `j` after row `i`. -/
def chain (c : List Int) : Nat → Nat → Nat
  | 0, j => if j ∈ b2j c (c.getD 0 0) then 1 else 0
  | i + 1, 0 => if 0 ∈ b2j c (c.getD (i + 1) 0) then 1 else 0
  | i + 1, j + 1 => if j + 1 ∈ b2j c (c.getD (i + 1) 0) then chain c i j + 1 else 0

/-- Separation of two matching blocks `(i, j, size)`: the first ends at or
before the start of the second, in both coordinates. -/
def Sep (x y : Nat × Nat × Nat) : Prop :=
  x.1 + x.2.2 ≤ y.1 ∧ x.2.1 + x.2.2 ≤ y.2.1

/-- Shape of a filtered one-sided match list (`a_matches`/`b_matches`):
nonempty, ends with the sentinel `(n, n)`, consecutive matches separated,
every match nondecreasing and inside `[0, n]`. -/
def MatchesOk (ms : List (Nat × Nat)) (n : Nat) : Prop :=
  ms ≠ [] ∧ ms.getLast? = some (n, n) ∧ ms.Chain' (fun s t => s.2 ≤ t.1) ∧
  ∀ s ∈ ms, s.1 ≤ s.2 ∧ s.2 ≤ n

/-- The span list tiles `[0, n)` exactly once: nonempty, starts at 0, ends
at `n`, consecutive spans abut (no gap, no overlap), every span is
nondecreasing (hence the list is in increasing index order). -/
def Covers (spans : List (Nat × Nat)) (n : Nat) : Prop :=
  spans ≠ [] ∧ (spans.headD (0, 0)).1 = 0 ∧ (spans.getLastD (0, 0)).2 = n ∧
  spans.Chain' (fun s t => s.2 = t.1) ∧ ∀ s ∈ spans, s.1 ≤ s.2

/-- Modified and matched spans strictly alternate, modified first: the list
has length `2·|ms|`, the matched spans are exactly the odd positions, and
the list ends with the empty sentinel span `(n, n)`. -/
def Alternates (spans ms : List (Nat × Nat)) (n : Nat) : Prop :=
  spans.length = 2 * ms.length ∧ (∀ t, spans.get? (2 * t + 1) = ms.get? t) ∧
  spans.getLastD (0, 0) = (n, n)

/-! ## Region bounds for `find_longest_match`

Whenever the returned size is nonzero, the triple `(i, j, k)` satisfies
`alo ≤ i`, `blo ≤ j`, `i + k ≤ ahi`, `j + k ≤ bhi`. -/

theorem BestOk.mono {alo blo bhi r r2 : Nat} {x : Nat × Nat × Nat}
    (h : BestOk alo blo bhi r x) (hr : r ≤ r2) : BestOk alo blo bhi r2 x := by
  rcases h with h | h
  · exact Or.inl h
  · exact Or.inr ⟨h.1, h.2.1, by omega, h.2.2.2⟩

theorem processJ_inv {alo blo bhi i : Nat} {old : Nat → Nat}
    (hold : ∀ jj, old jj ≤ i - alo ∧ (old jj ≠ 0 → blo ≤ jj ∧ jj < bhi ∧ old jj ≤ jj + 1 - blo))
    (hi : alo ≤ i)
    {acc : (Nat → Nat) × (Nat × Nat × Nat)}
    (hacc : (∀ jj, acc.1 jj ≤ i + 1 - alo ∧
        (acc.1 jj ≠ 0 → blo ≤ jj ∧ jj < bhi ∧ acc.1 jj ≤ jj + 1 - blo)) ∧
      BestOk alo blo bhi (i + 1) acc.2)
    {j : Nat} (hj : blo ≤ j ∧ j < bhi) :
    (∀ jj, (processJ i old acc j).1 jj ≤ i + 1 - alo ∧
        ((processJ i old acc j).1 jj ≠ 0 → blo ≤ jj ∧ jj < bhi ∧
          (processJ i old acc j).1 jj ≤ jj + 1 - blo)) ∧
      BestOk alo blo bhi (i + 1) (processJ i old acc j).2 := by
  obtain ⟨hf, hbest⟩ := hacc
  have hk1 : j2lenGet old j + 1 ≤ i + 1 - alo := by
    unfold j2lenGet
    split
    · omega
    · have := hold (j - 1)
      omega
  have hk2 : j2lenGet old j + 1 ≤ j + 1 - blo := by
    unfold j2lenGet
    split
    · omega
    · have h2 := (hold (j - 1)).2
      by_cases h0 : old (j - 1) = 0
      · omega
      · have := h2 h0
        omega
  constructor
  · intro jj
    simp only [processJ]
    by_cases hjj : jj = j
    · rw [hjj, if_pos rfl]
      exact ⟨hk1, fun _ => ⟨hj.1, hj.2, hk2⟩⟩
    · rw [if_neg hjj]
      exact hf jj
  · simp only [processJ]
    by_cases hlt : acc.2.2.2 < j2lenGet old j + 1
    · rw [if_pos hlt]
      exact Or.inr ⟨show alo ≤ i + 1 - (j2lenGet old j + 1) by omega,
        show blo ≤ j + 1 - (j2lenGet old j + 1) by omega,
        show i + 1 - (j2lenGet old j + 1) + (j2lenGet old j + 1) ≤ i + 1 by omega,
        show j + 1 - (j2lenGet old j + 1) + (j2lenGet old j + 1) ≤ bhi by omega⟩
    · rw [if_neg hlt]
      exact hbest

theorem foldl_processJ_inv {alo blo bhi i : Nat} {old : Nat → Nat}
    (hold : ∀ jj, old jj ≤ i - alo ∧ (old jj ≠ 0 → blo ≤ jj ∧ jj < bhi ∧ old jj ≤ jj + 1 - blo))
    (hi : alo ≤ i) :
    ∀ (js : List Nat) (acc : (Nat → Nat) × (Nat × Nat × Nat)),
      (∀ j ∈ js, blo ≤ j ∧ j < bhi) →
      ((∀ jj, acc.1 jj ≤ i + 1 - alo ∧
          (acc.1 jj ≠ 0 → blo ≤ jj ∧ jj < bhi ∧ acc.1 jj ≤ jj + 1 - blo)) ∧
        BestOk alo blo bhi (i + 1) acc.2) →
      ((∀ jj, (js.foldl (processJ i old) acc).1 jj ≤ i + 1 - alo ∧
          ((js.foldl (processJ i old) acc).1 jj ≠ 0 → blo ≤ jj ∧ jj < bhi ∧
            (js.foldl (processJ i old) acc).1 jj ≤ jj + 1 - blo)) ∧
        BestOk alo blo bhi (i + 1) (js.foldl (processJ i old) acc).2)
  | [], _, _, hacc => hacc
  | j :: js, acc, hjs, hacc => by
    have hstep := processJ_inv hold hi hacc (hjs j (List.mem_cons_self j js))
    exact foldl_processJ_inv hold hi js (processJ i old acc j)
      (fun x hx => hjs x (List.mem_cons_of_mem j hx)) hstep

theorem processRow_inv {a b : List Int} {alo blo bhi i : Nat}
    {st : (Nat → Nat) × (Nat × Nat × Nat)}
    (hst : StInv alo blo bhi i st) (hi : alo ≤ i) :
    StInv alo blo bhi (i + 1) (processRow a b blo bhi st i) := by
  obtain ⟨hf, hbest⟩ := hst
  unfold processRow
  have hmem : ∀ j ∈ (b2j b (a.getD i 0)).filter
      (fun j => decide (blo ≤ j) && decide (j < bhi)), blo ≤ j ∧ j < bhi := by
    intro j hj
    have := List.of_mem_filter hj
    simp at this
    exact this
  exact foldl_processJ_inv hf hi
    ((b2j b (a.getD i 0)).filter (fun j => decide (blo ≤ j) && decide (j < bhi)))
    ((fun _ => 0), st.2) hmem
    ⟨fun jj => ⟨Nat.zero_le _, fun h => absurd rfl h⟩, BestOk.mono hbest (by omega)⟩

theorem flmLoop_aux {a b : List Int} {alo blo bhi : Nat} :
    ∀ (len r : Nat) (st : (Nat → Nat) × (Nat × Nat × Nat)),
      alo ≤ r → StInv alo blo bhi r st →
      StInv alo blo bhi (r + len) ((List.range' r len).foldl (processRow a b blo bhi) st)
  | 0, _, _, _, hst => hst
  | len + 1, r, st, hr, hst => by
    have hstep := processRow_inv (a := a) (b := b) hst hr
    have := flmLoop_aux (a := a) (b := b) len (r + 1) (processRow a b blo bhi st r)
      (by omega) hstep
    simpa [List.range'_succ, Nat.add_comm, Nat.add_assoc, Nat.add_left_comm] using this

theorem flmLoop_cases (a b : List Int) (alo ahi blo bhi : Nat) :
    BestOk alo blo bhi ahi (flmLoop a b alo ahi blo bhi) := by
  by_cases halo : alo ≤ ahi
  · have h0 : StInv alo blo bhi alo ((fun _ => 0), (alo, blo, 0)) :=
      ⟨fun jj => ⟨Nat.zero_le _, fun hh => absurd rfl hh⟩, Or.inl rfl⟩
    have h := flmLoop_aux (a := a) (b := b) (ahi - alo) alo ((fun _ => 0), (alo, blo, 0))
      (le_refl _) h0
    have heq : alo + (ahi - alo) = ahi := by omega
    rw [heq] at h
    exact h.2
  · have hz : ahi - alo = 0 := by omega
    unfold flmLoop
    rw [hz]
    exact Or.inl rfl

theorem extendBack_bounds (a b : List Int) (alo blo ahi bhi : Nat) :
    ∀ i j k : Nat, alo ≤ i → blo ≤ j → i + k ≤ ahi → j + k ≤ bhi →
      alo ≤ (extendBack a b alo blo i j k).1 ∧
      blo ≤ (extendBack a b alo blo i j k).2.1 ∧
      (extendBack a b alo blo i j k).1 + (extendBack a b alo blo i j k).2.2 ≤ ahi ∧
      (extendBack a b alo blo i j k).2.1 + (extendBack a b alo blo i j k).2.2 ≤ bhi := by
  apply extendBack.induct a b alo blo
    (motive := fun i j k => alo ≤ i → blo ≤ j → i + k ≤ ahi → j + k ≤ bhi →
      alo ≤ (extendBack a b alo blo i j k).1 ∧
      blo ≤ (extendBack a b alo blo i j k).2.1 ∧
      (extendBack a b alo blo i j k).1 + (extendBack a b alo blo i j k).2.2 ≤ ahi ∧
      (extendBack a b alo blo i j k).2.1 + (extendBack a b alo blo i j k).2.2 ≤ bhi)
  · intro i j k h ih h1 h2 h3 h4
    rw [extendBack, dif_pos h]
    exact ih (by omega) (by omega) (by omega) (by omega)
  · intro i j k h h1 h2 h3 h4
    rw [extendBack, dif_neg h]
    exact ⟨h1, h2, h3, h4⟩

theorem extendBack_init (a b : List Int) (alo blo k : Nat) :
    extendBack a b alo blo alo blo k = (alo, blo, k) := by
  rw [extendBack, dif_neg]
  simp

theorem extendFwd_cases (a b : List Int) (ahi bhi i j : Nat) :
    ∀ k : Nat, extendFwd a b ahi bhi i j k = k ∨
      (i + extendFwd a b ahi bhi i j k ≤ ahi ∧ j + extendFwd a b ahi bhi i j k ≤ bhi) := by
  apply extendFwd.induct a b ahi bhi i j
    (motive := fun k => extendFwd a b ahi bhi i j k = k ∨
      (i + extendFwd a b ahi bhi i j k ≤ ahi ∧ j + extendFwd a b ahi bhi i j k ≤ bhi))
  · intro k h ih
    rw [extendFwd, dif_pos h]
    right
    rcases ih with heq | hb
    · rw [heq]
      omega
    · exact hb
  · intro k h
    left
    rw [extendFwd, dif_neg h]

theorem find_longest_match_bounds (a b : List Int) (alo ahi blo bhi : Nat) :
    (find_longest_match a b alo ahi blo bhi).2.2 = 0 ∨
    (alo ≤ (find_longest_match a b alo ahi blo bhi).1 ∧
     blo ≤ (find_longest_match a b alo ahi blo bhi).2.1 ∧
     (find_longest_match a b alo ahi blo bhi).1 +
       (find_longest_match a b alo ahi blo bhi).2.2 ≤ ahi ∧
     (find_longest_match a b alo ahi blo bhi).2.1 +
       (find_longest_match a b alo ahi blo bhi).2.2 ≤ bhi) := by
  have e1 : (find_longest_match a b alo ahi blo bhi).1 =
      (extendBack a b alo blo (flmLoop a b alo ahi blo bhi).1
        (flmLoop a b alo ahi blo bhi).2.1 (flmLoop a b alo ahi blo bhi).2.2).1 := rfl
  have e2 : (find_longest_match a b alo ahi blo bhi).2.1 =
      (extendBack a b alo blo (flmLoop a b alo ahi blo bhi).1
        (flmLoop a b alo ahi blo bhi).2.1 (flmLoop a b alo ahi blo bhi).2.2).2.1 := rfl
  have e3 : (find_longest_match a b alo ahi blo bhi).2.2 =
      extendFwd a b ahi bhi
        (extendBack a b alo blo (flmLoop a b alo ahi blo bhi).1
          (flmLoop a b alo ahi blo bhi).2.1 (flmLoop a b alo ahi blo bhi).2.2).1
        (extendBack a b alo blo (flmLoop a b alo ahi blo bhi).1
          (flmLoop a b alo ahi blo bhi).2.1 (flmLoop a b alo ahi blo bhi).2.2).2.1
        (extendBack a b alo blo (flmLoop a b alo ahi blo bhi).1
          (flmLoop a b alo ahi blo bhi).2.1 (flmLoop a b alo ahi blo bhi).2.2).2.2 := rfl
  rw [e1, e2, e3]
  rcases flmLoop_cases a b alo ahi blo bhi with heq | hb
  · rw [heq]
    have hext : extendBack a b alo blo (alo, blo, 0).1 (alo, blo, 0).2.1 (alo, blo, 0).2.2 =
        (alo, blo, 0) := extendBack_init a b alo blo 0
    rw [hext]
    rcases extendFwd_cases a b ahi bhi (alo, blo, 0).1 (alo, blo, 0).2.1 (alo, blo, 0).2.2
      with h0 | hgood
    · exact Or.inl h0
    · exact Or.inr ⟨le_refl _, le_refl _, hgood.1, hgood.2⟩
  · obtain ⟨h1, h2, h3, h4⟩ := hb
    obtain ⟨q1, q2, q3, q4⟩ := extendBack_bounds a b alo blo ahi bhi
      (flmLoop a b alo ahi blo bhi).1 (flmLoop a b alo ahi blo bhi).2.1
      (flmLoop a b alo ahi blo bhi).2.2 h1 h2 h3 h4
    rcases extendFwd_cases a b ahi bhi
      (extendBack a b alo blo (flmLoop a b alo ahi blo bhi).1
        (flmLoop a b alo ahi blo bhi).2.1 (flmLoop a b alo ahi blo bhi).2.2).1
      (extendBack a b alo blo (flmLoop a b alo ahi blo bhi).1
        (flmLoop a b alo ahi blo bhi).2.1 (flmLoop a b alo ahi blo bhi).2.2).2.1
      (extendBack a b alo blo (flmLoop a b alo ahi blo bhi).1
        (flmLoop a b alo ahi blo bhi).2.1 (flmLoop a b alo ahi blo bhi).2.2).2.2
      with h0 | hgood
    · refine Or.inr ⟨q1, q2, ?_, ?_⟩
      · rw [h0]
        exact q3
      · rw [h0]
        exact q4
    · exact Or.inr ⟨q1, q2, hgood.1, hgood.2⟩

/-! ## Matching blocks: in-region, nonempty sizes, pairwise separated -/

theorem matchingBlocksRec_eq (a b : List Int) (alo ahi blo bhi bi bj bk : Nat)
    (hfind : find_longest_match a b alo ahi blo bhi = (bi, bj, bk)) (hk : bk ≠ 0)
    (hb : alo ≤ bi ∧ blo ≤ bj ∧ bi + bk ≤ ahi ∧ bj + bk ≤ bhi) :
    matchingBlocksRec a b alo ahi blo bhi =
      (if alo < bi ∧ blo < bj then matchingBlocksRec a b alo bi blo bj else []) ++
      [(bi, bj, bk)] ++
      (if bi + bk < ahi ∧ bj + bk < bhi then
        matchingBlocksRec a b (bi + bk) ahi (bj + bk) bhi else []) := by
  rw [matchingBlocksRec.eq_def, hfind]
  rw [dif_neg (by exact hk), dif_pos (by exact hb)]

theorem matchingBlocksRec_nil (a b : List Int) (alo ahi blo bhi : Nat)
    (hk : (find_longest_match a b alo ahi blo bhi).2.2 = 0) :
    matchingBlocksRec a b alo ahi blo bhi = [] := by
  rw [matchingBlocksRec.eq_def, dif_pos hk]

theorem matchingBlocksRec_spec (a b : List Int) :
    ∀ (n alo ahi blo bhi : Nat), (ahi - alo) + (bhi - blo) ≤ n →
      (∀ x ∈ matchingBlocksRec a b alo ahi blo bhi,
        alo ≤ x.1 ∧ x.1 + x.2.2 ≤ ahi ∧ blo ≤ x.2.1 ∧ x.2.1 + x.2.2 ≤ bhi ∧ 1 ≤ x.2.2) ∧
      (matchingBlocksRec a b alo ahi blo bhi).Pairwise Sep := by
  intro n
  induction n using Nat.strong_induction_on with
  | _ n ih =>
    intro alo ahi blo bhi hn
    by_cases hk : (find_longest_match a b alo ahi blo bhi).2.2 = 0
    · rw [matchingBlocksRec_nil a b alo ahi blo bhi hk]
      exact ⟨fun x hx => absurd hx (List.not_mem_nil x), List.Pairwise.nil⟩
    · obtain ⟨g1, g2, g3, g4⟩ :=
        (find_longest_match_bounds a b alo ahi blo bhi).resolve_left hk
      have hk1 : 1 ≤ (find_longest_match a b alo ahi blo bhi).2.2 := by omega
      rw [matchingBlocksRec_eq a b alo ahi blo bhi
        (find_longest_match a b alo ahi blo bhi).1
        (find_longest_match a b alo ahi blo bhi).2.1
        (find_longest_match a b alo ahi blo bhi).2.2 rfl hk ⟨g1, g2, g3, g4⟩]
      set bi := (find_longest_match a b alo ahi blo bhi).1 with hbi
      set bj := (find_longest_match a b alo ahi blo bhi).2.1 with hbj
      set bk := (find_longest_match a b alo ahi blo bhi).2.2 with hbk
      have hL : (∀ x ∈ (if alo < bi ∧ blo < bj then matchingBlocksRec a b alo bi blo bj
            else []),
          alo ≤ x.1 ∧ x.1 + x.2.2 ≤ bi ∧ blo ≤ x.2.1 ∧ x.2.1 + x.2.2 ≤ bj ∧ 1 ≤ x.2.2) ∧
          (if alo < bi ∧ blo < bj then matchingBlocksRec a b alo bi blo bj
            else []).Pairwise Sep := by
        by_cases h1 : alo < bi ∧ blo < bj
        · rw [if_pos h1]
          exact ih ((bi - alo) + (bj - blo)) (by omega) alo bi blo bj (le_refl _)
        · rw [if_neg h1]
          exact ⟨fun x hx => absurd hx (List.not_mem_nil x), List.Pairwise.nil⟩
      have hR : (∀ x ∈ (if bi + bk < ahi ∧ bj + bk < bhi then
            matchingBlocksRec a b (bi + bk) ahi (bj + bk) bhi else []),
          bi + bk ≤ x.1 ∧ x.1 + x.2.2 ≤ ahi ∧ bj + bk ≤ x.2.1 ∧ x.2.1 + x.2.2 ≤ bhi ∧
            1 ≤ x.2.2) ∧
          (if bi + bk < ahi ∧ bj + bk < bhi then
            matchingBlocksRec a b (bi + bk) ahi (bj + bk) bhi else []).Pairwise Sep := by
        by_cases h2 : bi + bk < ahi ∧ bj + bk < bhi
        · rw [if_pos h2]
          exact ih ((ahi - (bi + bk)) + (bhi - (bj + bk))) (by omega) (bi + bk) ahi
            (bj + bk) bhi (le_refl _)
        · rw [if_neg h2]
          exact ⟨fun x hx => absurd hx (List.not_mem_nil x), List.Pairwise.nil⟩
      constructor
      · intro x hx
        rcases List.mem_append.1 hx with hx | hxR
        · rcases List.mem_append.1 hx with hxL | hxM
          · have := hL.1 x hxL
            exact ⟨this.1, by omega, this.2.2.1, by omega, this.2.2.2.2⟩
          · rcases List.mem_singleton.1 hxM with rfl
            exact ⟨g1, g3, g2, g4, hk1⟩
        · have := hR.1 x hxR
          exact ⟨by omega, this.2.1, by omega, this.2.2.2.1, this.2.2.2.2⟩
      · rw [List.pairwise_append]
        refine ⟨?_, ?_, ?_⟩
        · rw [List.pairwise_append]
          refine ⟨hL.2, List.pairwise_singleton _ _, ?_⟩
          intro u hu v hv
          rcases List.mem_singleton.1 hv with rfl
          have := hL.1 u hu
          exact ⟨this.2.1, this.2.2.2.1⟩
        · exact hR.2
        · intro u hu v hv
          have hvb := hR.1 v hv
          rcases List.mem_append.1 hu with huL | huM
          · have := hL.1 u huL
            exact ⟨by omega, by omega⟩
          · rcases List.mem_singleton.1 huM with rfl
            exact ⟨hvb.1, hvb.2.2.1⟩

theorem collapseGo_spec (la lb : Nat) :
    ∀ (l : List (Nat × Nat × Nat)) (cur : Nat × Nat × Nat),
      (∀ x ∈ l, x.1 + x.2.2 ≤ la ∧ x.2.1 + x.2.2 ≤ lb ∧ 1 ≤ x.2.2) →
      l.Pairwise Sep →
      (∀ x ∈ l, Sep cur x) →
      cur.1 + cur.2.2 ≤ la → cur.2.1 + cur.2.2 ≤ lb →
      (∀ x ∈ collapseGo cur l,
        cur.1 ≤ x.1 ∧ cur.2.1 ≤ x.2.1 ∧ x.1 + x.2.2 ≤ la ∧ x.2.1 + x.2.2 ≤ lb ∧
          1 ≤ x.2.2) ∧
      (collapseGo cur l).Pairwise Sep
  | [], cur, _, _, _, hca, hcb => by
    simp only [collapseGo]
    by_cases hz : cur.2.2 ≠ 0
    · rw [if_pos hz]
      refine ⟨?_, List.pairwise_singleton _ _⟩
      intro x hx
      rcases List.mem_singleton.1 hx with rfl
      exact ⟨le_refl _, le_refl _, hca, hcb, by omega⟩
    · rw [if_neg hz]
      exact ⟨fun x hx => absurd hx (List.not_mem_nil x), List.Pairwise.nil⟩
  | y :: rest, cur, hm, hp, hsep, hca, hcb => by
    simp only [collapseGo]
    have hy := hm y (List.mem_cons_self y rest)
    have hrest : ∀ x ∈ rest, x.1 + x.2.2 ≤ la ∧ x.2.1 + x.2.2 ≤ lb ∧ 1 ≤ x.2.2 :=
      fun x hx => hm x (List.mem_cons_of_mem y hx)
    have hsepy := (List.pairwise_cons.1 hp).1
    have hp2 := (List.pairwise_cons.1 hp).2
    by_cases hmerge : cur.1 + cur.2.2 = y.1 ∧ cur.2.1 + cur.2.2 = y.2.1
    · rw [if_pos hmerge]
      have hsep2 : ∀ x ∈ rest, Sep (cur.1, cur.2.1, cur.2.2 + y.2.2) x := by
        intro x hx
        have hyx := hsepy x hx
        have hyx1 : y.1 + y.2.2 ≤ x.1 := hyx.1
        have hyx2 : y.2.1 + y.2.2 ≤ x.2.1 := hyx.2
        exact ⟨show cur.1 + (cur.2.2 + y.2.2) ≤ x.1 by omega,
          show cur.2.1 + (cur.2.2 + y.2.2) ≤ x.2.1 by omega⟩
      have hrec := collapseGo_spec la lb rest (cur.1, cur.2.1, cur.2.2 + y.2.2) hrest hp2
        hsep2 (show cur.1 + (cur.2.2 + y.2.2) ≤ la by omega)
        (show cur.2.1 + (cur.2.2 + y.2.2) ≤ lb by omega)
      exact hrec
    · rw [if_neg hmerge]
      have hrec := collapseGo_spec la lb rest y hrest hp2 hsepy hy.1 hy.2.1
      have hself := hsep y (List.mem_cons_self y rest)
      have hself1 : cur.1 + cur.2.2 ≤ y.1 := hself.1
      have hself2 : cur.2.1 + cur.2.2 ≤ y.2.1 := hself.2
      constructor
      · intro x hx
        rcases List.mem_append.1 hx with hx1 | hx2
        · by_cases hz : cur.2.2 ≠ 0
          · rw [if_pos hz] at hx1
            rcases List.mem_singleton.1 hx1 with rfl
            exact ⟨le_refl _, le_refl _, hca, hcb, by omega⟩
          · rw [if_neg hz] at hx1
            exact absurd hx1 (List.not_mem_nil x)
        · have h2 := hrec.1 x hx2
          exact ⟨by omega, by omega, h2.2.2.1, h2.2.2.2.1, h2.2.2.2.2⟩
      · rw [List.pairwise_append]
        refine ⟨?_, hrec.2, ?_⟩
        · by_cases hz : cur.2.2 ≠ 0
          · rw [if_pos hz]
            exact List.pairwise_singleton _ _
          · rw [if_neg hz]
            exact List.Pairwise.nil
        · intro u hu v hv
          by_cases hz : cur.2.2 ≠ 0
          · rw [if_pos hz] at hu
            rcases List.mem_singleton.1 hu with rfl
            have h2 := hrec.1 v hv
            exact ⟨by omega, by omega⟩
          · rw [if_neg hz] at hu
            exact absurd hu (List.not_mem_nil u)

theorem get_matching_blocks_spec (a b : List Int) :
    (∀ x ∈ get_matching_blocks a b, x.1 + x.2.2 ≤ a.length ∧ x.2.1 + x.2.2 ≤ b.length) ∧
    (get_matching_blocks a b).Pairwise Sep ∧
    (get_matching_blocks a b).getLast? = some (a.length, b.length, 0) ∧
    (get_matching_blocks a b).dropLast =
      collapseGo (0, 0, 0) (matchingBlocksRec a b 0 a.length 0 b.length) ∧
    (∀ x ∈ (get_matching_blocks a b).dropLast, 1 ≤ x.2.2) := by
  have hmb := matchingBlocksRec_spec a b (a.length + b.length) 0 a.length 0 b.length
    (by omega)
  have hcol := collapseGo_spec a.length b.length
    (matchingBlocksRec a b 0 a.length 0 b.length) (0, 0, 0)
    (fun x hx => ⟨(hmb.1 x hx).2.1, (hmb.1 x hx).2.2.2.1, (hmb.1 x hx).2.2.2.2⟩)
    hmb.2
    (fun x hx => ⟨show 0 + 0 ≤ x.1 by omega, show 0 + 0 ≤ x.2.1 by omega⟩)
    (show 0 + 0 ≤ a.length by omega) (show 0 + 0 ≤ b.length by omega)
  unfold get_matching_blocks
  refine ⟨?_, ?_, ?_, ?_, ?_⟩
  · intro x hx
    rcases List.mem_append.1 hx with hx1 | hx2
    · exact ⟨(hcol.1 x hx1).2.2.1, (hcol.1 x hx1).2.2.2.1⟩
    · rcases List.mem_singleton.1 hx2 with rfl
      exact ⟨show a.length + 0 ≤ a.length by omega, show b.length + 0 ≤ b.length by omega⟩
  · rw [List.pairwise_append]
    refine ⟨hcol.2, List.pairwise_singleton _ _, ?_⟩
    intro u hu v hv
    rcases List.mem_singleton.1 hv with rfl
    exact ⟨(hcol.1 u hu).2.2.1, (hcol.1 u hu).2.2.2.1⟩
  · rw [List.getLast?_concat]
  · rw [List.dropLast_concat]
  · rw [List.dropLast_concat]
    intro x hx
    exact (hcol.1 x hx).2.2.2.2

theorem get_match_info_spec (a b : List Int) (m : Nat) :
    MatchesOk (get_match_info a b m).1 a.length ∧
    MatchesOk (get_match_info a b m).2 b.length := by
  obtain ⟨hbnd, hpair, hlast, hdrop, hone⟩ := get_matching_blocks_spec a b
  unfold get_match_info
  have hld : (get_matching_blocks a b).getLastD (a.length, b.length, 0) =
      (a.length, b.length, 0) := by
    rw [List.getLastD_eq_getLast? _ (get_matching_blocks a b), hlast]
    rfl
  set mb := get_matching_blocks a b with hmb
  set mbf := mb.dropLast.filter (fun bl => decide (m ≤ bl.2.2)) ++
    [mb.getLastD (a.length, b.length, 0)] with hmbf
  have hsub : List.Sublist mbf (mb.dropLast ++ [mb.getLastD (a.length, b.length, 0)]) :=
    List.Sublist.append (List.filter_sublist _) (List.Sublist.refl _)
  have hfull : mb.dropLast ++ [mb.getLastD (a.length, b.length, 0)] = mb := by
    rw [hld]
    exact List.dropLast_append_getLast? (a.length, b.length, 0) (by simp [hlast])
  have hsub2 : List.Sublist mbf mb := by rw [hfull] at hsub; exact hsub
  have hmem : ∀ x ∈ mbf, x ∈ mb := fun x hx => hsub2.mem hx
  have hpairf : mbf.Pairwise Sep := hpair.sublist hsub2
  have hlastf : mbf.getLast? = some (a.length, b.length, 0) := by
    rw [hmbf, hld, List.getLast?_concat]
  constructor
  · refine ⟨by simp, ?_, ?_, ?_⟩
    · rw [List.getLast?_map, hlastf]
      rfl
    · refine List.Pairwise.chain' ?_
      rw [List.pairwise_map]
      refine hpairf.imp ?_
      intro x y hxy
      exact hxy.1
    · intro s hs
      rcases List.mem_map.1 hs with ⟨x, hx, rfl⟩
      exact ⟨by omega, by
        have := (hbnd x (hmem x hx)).1
        omega⟩
  · refine ⟨by simp, ?_, ?_, ?_⟩
    · rw [List.getLast?_map, hlastf]
      rfl
    · refine List.Pairwise.chain' ?_
      rw [List.pairwise_map]
      refine hpairf.imp ?_
      intro x y hxy
      exact hxy.2
    · intro s hs
      rcases List.mem_map.1 hs with ⟨x, hx, rfl⟩
      exact ⟨by omega, by
        have := (hbnd x (hmem x hx)).2
        omega⟩

/-! ## `complete_modification_spans` tiles the sequence -/

theorem cmsGo_spec (n : Nat) :
    ∀ (rest : List (Nat × Nat)) (mt : Nat × Nat) (i : Nat),
      i ≤ mt.1 →
      List.Chain' (fun s t => s.2 ≤ t.1) (mt :: rest) →
      (∀ s ∈ mt :: rest, s.1 ≤ s.2 ∧ s.2 ≤ n) →
      (cmsGo i mt.1 (mt :: rest)).length = 2 * (mt :: rest).length ∧
      (∀ t, (cmsGo i mt.1 (mt :: rest)).get? (2 * t + 1) = (mt :: rest).get? t) ∧
      (cmsGo i mt.1 (mt :: rest)).head? = some (i, mt.1) ∧
      (cmsGo i mt.1 (mt :: rest)).getLast? = (mt :: rest).getLast? ∧
      List.Chain' (fun s t => s.2 = t.1) (cmsGo i mt.1 (mt :: rest)) ∧
      (∀ s ∈ cmsGo i mt.1 (mt :: rest), s.1 ≤ s.2 ∧ s.2 ≤ n)
  | [], mt, i, hi, _, hsp => by
    have hmt := hsp mt (List.mem_cons_self mt [])
    refine ⟨rfl, ?_, rfl, rfl, ?_, ?_⟩
    · intro t
      match t with
      | 0 => rfl
      | t + 1 => rfl
    · exact List.chain'_cons.2 ⟨rfl, List.chain'_singleton _⟩
    · intro s hs
      rcases List.mem_cons.1 hs with rfl | hs
      · exact ⟨hi, by omega⟩
      · rcases List.mem_singleton.1 hs with rfl
        exact hmt
  | m1 :: rest2, mt, i, hi, hchain, hsp => by
    have hmt := hsp mt (List.mem_cons_self mt _)
    have hm1 := hsp m1 (List.mem_cons_of_mem mt (List.mem_cons_self m1 _))
    have hc1 : mt.2 ≤ m1.1 := (List.chain'_cons.1 hchain).1
    have hctl : List.Chain' (fun s t => s.2 ≤ t.1) (m1 :: rest2) :=
      (List.chain'_cons.1 hchain).2
    have hsptl : ∀ s ∈ m1 :: rest2, s.1 ≤ s.2 ∧ s.2 ≤ n :=
      fun s hs => hsp s (List.mem_cons_of_mem mt hs)
    obtain ⟨ihlen, ihget, ihhead, ihlast, ihchain, ihsp⟩ :=
      cmsGo_spec n rest2 m1 mt.2 hc1 hctl hsptl
    have hexp : cmsGo i mt.1 (mt :: m1 :: rest2) =
        (i, mt.1) :: mt :: cmsGo mt.2 m1.1 (m1 :: rest2) := rfl
    rw [hexp]
    refine ⟨?_, ?_, rfl, ?_, ?_, ?_⟩
    · simp only [List.length_cons, ihlen, List.length_cons]
      omega
    · intro t
      match t with
      | 0 => rfl
      | t + 1 =>
        have h1 : ((i, mt.1) :: mt :: cmsGo mt.2 m1.1 (m1 :: rest2)).get? (2 * (t + 1) + 1) =
            (cmsGo mt.2 m1.1 (m1 :: rest2)).get? (2 * t + 1) := by
          have : 2 * (t + 1) + 1 = (2 * t + 1) + 1 + 1 := by omega
          rw [this]
          rfl
        rw [h1, ihget t]
        rfl
    · rw [List.getLast?_cons_cons]
      have hne : cmsGo mt.2 m1.1 (m1 :: rest2) ≠ [] := by
        intro hnil
        rw [hnil] at ihhead
        exact Option.noConfusion ihhead
      rcases List.exists_cons_of_ne_nil hne with ⟨z, zs, hz⟩
      rw [hz]
      rw [List.getLast?_cons_cons]
      rw [← hz, ihlast]
      rw [List.getLast?_cons_cons]
    · refine List.chain'_cons'.2 ⟨?_, List.chain'_cons'.2 ⟨?_, ihchain⟩⟩
      · intro h hh
        simp only [List.head?_cons, Option.mem_def, Option.some.injEq] at hh
        rw [← hh]
      · intro h hh
        rw [ihhead] at hh
        simp only [Option.mem_def, Option.some.injEq] at hh
        rw [← hh]
    · intro s hs
      rcases List.mem_cons.1 hs with rfl | hs
      · exact ⟨hi, by omega⟩
      · rcases List.mem_cons.1 hs with rfl | hs
        · exact hmt
        · exact ihsp s hs

theorem complete_modification_spans_spec (ms : List (Nat × Nat)) (n : Nat)
    (h : MatchesOk ms n) :
    Covers (complete_modification_spans ms n) n ∧
    Alternates (complete_modification_spans ms n) ms n ∧
    (∀ s ∈ complete_modification_spans ms n, s.2 ≤ n) := by
  obtain ⟨hne, hlast, hchain, hsp⟩ := h
  rcases List.exists_cons_of_ne_nil hne with ⟨mt, rest, rfl⟩
  obtain ⟨clen, cget, chead, clast, cchain, csp⟩ :=
    cmsGo_spec n rest mt 0 (Nat.zero_le _) hchain hsp
  have hexp : complete_modification_spans (mt :: rest) n = cmsGo 0 mt.1 (mt :: rest) := rfl
  rw [hexp]
  have hcne : cmsGo 0 mt.1 (mt :: rest) ≠ [] := by
    intro hnil
    rw [hnil] at chead
    exact Option.noConfusion chead
  have hlastD : (cmsGo 0 mt.1 (mt :: rest)).getLastD (0, 0) = (n, n) := by
    rw [List.getLastD_eq_getLast? _ _, clast, hlast]
    rfl
  refine ⟨⟨hcne, ?_, ?_, cchain, fun s hs => (csp s hs).1⟩, ⟨clen, cget, hlastD⟩, ?_⟩
  · rw [List.headD_eq_head?, chead]
    rfl
  · rw [hlastD]
  · exact fun s hs => (csp s hs).2

/-- C1: for every pair of finite integer sequences and every
`min_match_size ≥ 1`, the span lists obtained by applying
`complete_modification_spans` to both sides of `get_match_info` cover
`[0, len(a))` and `[0, len(b))` exactly once each — consecutive spans abut
with no gaps and no overlaps, spans appear in increasing index order — and
modified and matched spans strictly alternate, modified first, ending with
the empty sentinel matched span. -/
theorem C1_align_spans_partition (a b : List Int) (m : Nat) (hm : 1 ≤ m) :
    Covers (complete_modification_spans (get_match_info a b m).1 a.length) a.length ∧
    Alternates (complete_modification_spans (get_match_info a b m).1 a.length)
      (get_match_info a b m).1 a.length ∧
    Covers (complete_modification_spans (get_match_info a b m).2 b.length) b.length ∧
    Alternates (complete_modification_spans (get_match_info a b m).2 b.length)
      (get_match_info a b m).2 b.length := by
  obtain ⟨h1, h2⟩ := get_match_info_spec a b m
  obtain ⟨c1, a1, _⟩ := complete_modification_spans_spec _ _ h1
  obtain ⟨c2, a2, _⟩ := complete_modification_spans_spec _ _ h2
  exact ⟨c1, a1, c2, a2⟩

/-- Witness for C1 at the spec scenario `a = [1,2,3,4,5]`,
`b = [1,2,9,4,5]`, `min_match_size = 1`. -/
theorem C1_align_spans_partition_witness :
    1 ≤ 1 ∧
    (Covers (complete_modification_spans
        (get_match_info [(1 : Int), 2, 3, 4, 5] [1, 2, 9, 4, 5] 1).1
        ([(1 : Int), 2, 3, 4, 5] : List Int).length)
      ([(1 : Int), 2, 3, 4, 5] : List Int).length ∧
    Alternates (complete_modification_spans
        (get_match_info [(1 : Int), 2, 3, 4, 5] [1, 2, 9, 4, 5] 1).1
        ([(1 : Int), 2, 3, 4, 5] : List Int).length)
      (get_match_info [(1 : Int), 2, 3, 4, 5] [1, 2, 9, 4, 5] 1).1
      ([(1 : Int), 2, 3, 4, 5] : List Int).length ∧
    Covers (complete_modification_spans
        (get_match_info [(1 : Int), 2, 3, 4, 5] [1, 2, 9, 4, 5] 1).2
        ([(1 : Int), 2, 9, 4, 5] : List Int).length)
      ([(1 : Int), 2, 9, 4, 5] : List Int).length ∧
    Alternates (complete_modification_spans
        (get_match_info [(1 : Int), 2, 3, 4, 5] [1, 2, 9, 4, 5] 1).2
        ([(1 : Int), 2, 9, 4, 5] : List Int).length)
      (get_match_info [(1 : Int), 2, 3, 4, 5] [1, 2, 9, 4, 5] 1).2
      ([(1 : Int), 2, 9, 4, 5] : List Int).length) :=
  ⟨le_refl 1, C1_align_spans_partition [1, 2, 3, 4, 5] [1, 2, 9, 4, 5] 1 (le_refl 1)⟩

/-! ## Bounds on the diff token ids -/

theorem mem_range_interval (p s n : Nat) : p ∈ List.range' s n ↔ s ≤ p ∧ p < s + n := by
  rw [List.mem_range']
  constructor
  · rintro ⟨i, hi, rfl⟩
    omega
  · intro h
    exact ⟨p - s, by omega, by omega⟩

theorem spans2ids_go (spans : List (Nat × Nat)) :
    ∀ acc : List Nat,
      spans.foldl (fun ids span => ids ++ List.range' span.1 (span.2 - span.1)) acc =
      acc ++ spans.foldl (fun ids span => ids ++ List.range' span.1 (span.2 - span.1)) [] := by
  induction spans with
  | nil => intro acc; simp
  | cons s rest ih =>
    intro acc
    simp only [List.foldl_cons]
    rw [ih (acc ++ _), ih (List.nil ++ _)]
    simp

theorem mem_spans2ids {p : Nat} {spans : List (Nat × Nat)} :
    p ∈ spans2ids spans ↔ ∃ s ∈ spans, s.1 ≤ p ∧ p < s.2 := by
  induction spans with
  | nil => simp [spans2ids]
  | cons s rest ih =>
    unfold spans2ids at ih ⊢
    rw [List.foldl_cons, spans2ids_go]
    simp only [List.nil_append, List.mem_append, ih, mem_range_interval]
    constructor
    · rintro (hp | ⟨t, ht, hp⟩)
      · exact ⟨s, List.mem_cons_self s rest, by omega⟩
      · exact ⟨t, List.mem_cons_of_mem s ht, hp⟩
    · rintro ⟨t, ht, hp⟩
      rcases List.mem_cons.1 ht with rfl | ht
      · exact Or.inl (by omega)
      · exact Or.inr ⟨t, ht, hp⟩

theorem mem_sortedSet {p : Nat} {xs : List Nat} : p ∈ sortedSet xs ↔ p ∈ xs := by
  unfold sortedSet
  rw [List.mem_mergeSort, List.mem_dedup]

theorem mem_generate_modification_mapping {a b : List Int} {m : Nat}
    {pr : (Nat × Nat) × (Nat × Nat)} (h : pr ∈ generate_modification_mapping a b m) :
    pr.1 ∈ complete_modification_spans (get_match_info a b m).1 a.length ∧
    pr.2 ∈ complete_modification_spans (get_match_info a b m).2 b.length := by
  unfold generate_modification_mapping generate_modification_mapping_impl at h
  rcases List.mem_filterMap.1 h with ⟨q, hq, hf⟩
  have hq2 := List.snd_mem_of_mem_enum hq
  have hpr : pr = q.2 := by
    by_cases h1 : q.1 % 2 = 1
    · rw [if_pos h1] at hf
      exact Option.noConfusion hf
    · rw [if_neg h1] at hf
      by_cases h2 : span_not_empty q.2.1 ∧ span_not_empty q.2.2
      · rw [if_pos h2] at hf
        exact (Option.some.injEq _ _ ▸ hf).symm
      · rw [if_neg h2] at hf
        exact Option.noConfusion hf
  rw [hpr]
  have := List.of_mem_zip hq2
  exact this

theorem get_diff_ids_lt (a b : List Int) (m : Nat) :
    (∀ p ∈ (get_diff_ids a b m).1, p < a.length) ∧
    (∀ p ∈ (get_diff_ids a b m).2, p < b.length) := by
  have hs1 := (complete_modification_spans_spec _ _ (get_match_info_spec a b m).1).2.2
  have hs2 := (complete_modification_spans_spec _ _ (get_match_info_spec a b m).2).2.2
  constructor
  · intro p hp
    have hp2 : p ∈ spans2ids ((generate_modification_mapping a b m).map Prod.fst) :=
      mem_sortedSet.1 hp
    rcases mem_spans2ids.1 hp2 with ⟨s, hs, hps⟩
    rcases List.mem_map.1 hs with ⟨pr, hpr, rfl⟩
    have := (mem_generate_modification_mapping hpr).1
    have := hs1 _ this
    omega
  · intro p hp
    have hp2 : p ∈ spans2ids ((generate_modification_mapping a b m).map Prod.snd) :=
      mem_sortedSet.1 hp
    rcases mem_spans2ids.1 hp2 with ⟨s, hs, hps⟩
    rcases List.mem_map.1 hs with ⟨pr, hpr, rfl⟩
    have := (mem_generate_modification_mapping hpr).2
    have := hs2 _ this
    omega

/-! ## C5: collator token weights -/

theorem getD_set (row : List ℝ) (q p : Nat) (v d : ℝ) :
    (row.set q v).getD p d = if q = p ∧ q < row.length then v else row.getD p d := by
  rw [List.getD_eq_getElem?_getD, List.getD_eq_getElem?_getD, List.getElem?_set]
  by_cases h1 : q = p
  · subst h1
    by_cases h2 : q < row.length
    · simp [h2]
    · simp [h2, List.getElem?_eq_none (show row.length ≤ q by omega)]
  · simp [h1]

theorem setIndices_getD (v d : ℝ) :
    ∀ (idxs : List Nat) (row : List ℝ) (p : Nat),
      (setIndices row idxs v).getD p d =
        if p ∈ idxs ∧ p < row.length then v else row.getD p d
  | [], row, p => by
    simp [setIndices]
  | q :: rest, row, p => by
    have hrec := setIndices_getD v d rest (row.set q v) p
    have hexp : setIndices row (q :: rest) v = setIndices (row.set q v) rest v := rfl
    rw [hexp, hrec, List.length_set, getD_set]
    by_cases hr : p ∈ rest ∧ p < row.length
    · rw [if_pos hr, if_pos ⟨List.mem_cons_of_mem q hr.1, hr.2⟩]
    · rw [if_neg hr]
      by_cases hq : q = p ∧ q < row.length
      · rw [if_pos hq, if_pos ⟨by rw [← hq.1]; exact List.mem_cons_self q rest, by omega⟩]
      · rw [if_neg hq, if_neg]
        intro hc
        rcases List.mem_cons.1 hc.1 with rfl | hmem
        · exact hq ⟨rfl, hc.2⟩
        · exact hr ⟨hmem, hc.2⟩

theorem getD_replicate (n p : Nat) (v d : ℝ) (hp : p < n) :
    (List.replicate n v).getD p d = v := by
  rw [List.getD_eq_getElem?_getD, List.getElem?_replicate, if_pos hp]
  rfl

/-- C5: for every batch example, the per-token weight rows built by the
collator (`DataCollatorForDPODataset.__call__`, lines 1070-1082) equal the
base weight 1.0 at every position except exactly the positions returned by
`get_diff_ids` on the token rows with the leading token dropped and
`min_match_size = 3` (the flattened non-empty modified spans of the
chosen/rejected diff); at those positions they equal `mod_token_weight`. -/
theorem C5_token_weight_mask (w r : List Int) (mw : ℝ) :
    (∀ p, p < w.length - 1 →
      (token_weight_row w r mw).1.getD p 0 =
        if p ∈ (get_diff_ids (r.drop 1) (w.drop 1) 3).2 then mw else 1) ∧
    (∀ p, p < r.length - 1 →
      (token_weight_row w r mw).2.getD p 0 =
        if p ∈ (get_diff_ids (r.drop 1) (w.drop 1) 3).1 then mw else 1) := by
  have hexp1 : (token_weight_row w r mw).1 =
      setIndices (List.replicate (w.length - 1) 1)
        (get_diff_ids (r.drop 1) (w.drop 1) 3).2 mw := rfl
  have hexp2 : (token_weight_row w r mw).2 =
      setIndices (List.replicate (r.length - 1) 1)
        (get_diff_ids (r.drop 1) (w.drop 1) 3).1 mw := rfl
  constructor
  · intro p hp
    rw [hexp1, setIndices_getD, List.length_replicate]
    by_cases hmem : p ∈ (get_diff_ids (r.drop 1) (w.drop 1) 3).2
    · rw [if_pos ⟨hmem, hp⟩, if_pos hmem]
    · rw [if_neg (fun hc => hmem hc.1), if_neg hmem, getD_replicate _ _ _ _ hp]
  · intro p hp
    rw [hexp2, setIndices_getD, List.length_replicate]
    by_cases hmem : p ∈ (get_diff_ids (r.drop 1) (w.drop 1) 3).1
    · rw [if_pos ⟨hmem, hp⟩, if_pos hmem]
    · rw [if_neg (fun hc => hmem hc.1), if_neg hmem, getD_replicate _ _ _ _ hp]

/-- Witness for C5: `w = [1, 2]`, `r = [1, 3]`, `mod_token_weight = 3`; the
single response position differs, so it carries weight 3. -/
theorem C5_token_weight_mask_witness :
    0 < ([(1 : Int), 2] : List Int).length - 1 ∧
    (token_weight_row [(1 : Int), 2] [(1 : Int), 3] 3).1.getD 0 0 =
      (if 0 ∈ (get_diff_ids (([(1 : Int), 3] : List Int).drop 1)
          (([(1 : Int), 2] : List Int).drop 1) 3).2 then (3 : ℝ) else 1) :=
  ⟨by decide, (C5_token_weight_mask [1, 2] [1, 3] 3).1 0 (by decide)⟩

/-! ## C10: concatenated token weights are zero-padded -/

/-- C10: `concatenated_token_weight` right-pads each example's weight row
with the value 0 (not the base weight 1.0) up to the concatenated batch's
longest row: every position at or past the row's own length is exactly 0. -/
theorem C10_concat_pad_zero (A B : List (List ℝ)) (r p : Nat)
    (hrow : r < (A ++ B).length)
    (hp1 : ((A ++ B).getD r []).length ≤ p)
    (hp2 : p < ((A ++ B).map List.length).foldr max 0) :
    ((concatenated_token_weight A B).getD r []).getD p 1 = 0 := by
  unfold concatenated_token_weight concate_pad pad_sequence
  rcases List.getElem?_eq_some_iff.2 ⟨hrow, rfl⟩ with hget
  have hget : (A ++ B).get? r = some ((A ++ B)[r]) := by
    simp
  have hrowD : (A ++ B).getD r [] = (A ++ B)[r] := by
    rw [List.getD_eq_getElem?_getD, List.getElem?_eq_getElem hrow]
    rfl
  have hmapD : ((A ++ B).map (fun row =>
      row ++ List.replicate ((((A ++ B).map List.length).foldr max 0) - row.length) 0)).getD
        r [] =
      (A ++ B)[r] ++ List.replicate
        ((((A ++ B).map List.length).foldr max 0) - (A ++ B)[r].length) 0 := by
    rw [List.getD_eq_getElem?_getD, List.getElem?_map, List.getElem?_eq_getElem hrow]
    rfl
  rw [hmapD]
  rw [hrowD] at hp1
  rw [List.getD_eq_getElem?_getD, List.getElem?_append_right hp1,
    List.getElem?_replicate, if_pos (by omega)]
  rfl

/-- Witness for C10: rows `[[5]]` and `[[1, 2]]`; the shorter row's padded
position 1 is 0. -/
theorem C10_concat_pad_zero_witness :
    0 < ([[(5 : ℝ)]] ++ [[(1 : ℝ), 2]]).length ∧
    ((([[(5 : ℝ)]] ++ [[(1 : ℝ), 2]]).getD 0 []).length ≤ 1) ∧
    1 < (([[(5 : ℝ)]] ++ [[(1 : ℝ), 2]]).map List.length).foldr max 0 ∧
    ((concatenated_token_weight [[(5 : ℝ)]] [[(1 : ℝ), 2]]).getD 0 []).getD 1 1 = 0 :=
  ⟨by simp, by simp, by simp, C10_concat_pad_zero [[(5 : ℝ)]] [[(1 : ℝ), 2]] 0 1
    (by simp) (by simp) (by simp)⟩

/-! ## C8: first EMA update from zeroed statistics -/

/-- C8: in a single-process run with all four running statistics zero and
decay `gamma = 0.9`, one call to `update_and_sync_tensor_mean` leaves each
running statistic equal to `0.1` times the corresponding batch statistic. -/
theorem C8_ema_first_update (gap loss : List ℝ) :
    update_and_sync_tensor_mean ⟨0, 0, 0, 0⟩ gap loss 0.9 =
      ⟨0.1 * tmean gap, 0.1 * tstd gap, 0.1 * tmean loss, 0.1 * tstd loss⟩ := by
  unfold update_and_sync_tensor_mean
  rw [GapStats.mk.injEq]
  refine ⟨by ring_nf, by ring_nf, by ring_nf, by ring_nf⟩

/-! ## Counting the selection mask (C2, C4) -/

theorem sum_indicator (l idxs : List Nat) :
    (l.map (fun p => if p ∈ idxs then (1 : ℝ) else 0)).sum =
      ((l.filter (fun p => decide (p ∈ idxs))).length : ℕ) := by
  induction l with
  | nil => simp
  | cons x xs ih =>
    simp only [List.map_cons, List.sum_cons, ih]
    by_cases hx : x ∈ idxs
    · rw [if_pos hx, List.filter_cons_of_pos (by simpa using hx), List.length_cons]
      push_cast
      ring
    · rw [if_neg hx, List.filter_cons_of_neg (by simpa using hx)]
      ring

theorem filter_range_count (n : Nat) (idxs : List Nat) (hnd : idxs.Nodup)
    (hlt : ∀ p ∈ idxs, p < n) :
    ((List.range n).filter (fun p => decide (p ∈ idxs))).length = idxs.length := by
  have hperm : ((List.range n).filter (fun p => decide (p ∈ idxs))).Perm idxs := by
    apply List.perm_of_nodup_nodup_toFinset_eq
    · exact (List.nodup_range n).filter _
    · exact hnd
    · ext x
      simp only [List.mem_toFinset, List.mem_filter, List.mem_range, decide_eq_true_eq]
      exact ⟨fun h => h.2, fun h => ⟨hlt x h, h⟩⟩
  exact hperm.length_eq

theorem filter_range_le (n : Nat) (idxs : List Nat) :
    ((List.range n).filter (fun p => decide (p ∈ idxs))).length ≤ idxs.length := by
  have h1 : ((List.range n).filter (fun p => decide (p ∈ idxs))).length =
      ((List.range n).filter (fun p => decide (p ∈ idxs))).toFinset.card :=
    (List.toFinset_card_of_nodup ((List.nodup_range n).filter _)).symm
  have h2 : ((List.range n).filter (fun p => decide (p ∈ idxs))).toFinset ⊆
      idxs.toFinset := by
    intro x hx
    simp only [List.mem_toFinset, List.mem_filter, decide_eq_true_eq] at hx ⊢
    exact hx.2
  rw [h1]
  exact le_trans (Finset.card_le_card h2) idxs.toFinset_card_le

theorem filter_range_pos (n : Nat) (idxs : List Nat) (hne : idxs ≠ [])
    (hlt : ∀ p ∈ idxs, p < n) :
    1 ≤ ((List.range n).filter (fun p => decide (p ∈ idxs))).length := by
  rcases List.exists_cons_of_ne_nil hne with ⟨q, rest, rfl⟩
  have hq : q ∈ (List.range n).filter (fun p => decide (p ∈ q :: rest)) := by
    simp only [List.mem_filter, List.mem_range, decide_eq_true_eq]
    exact ⟨hlt q (List.mem_cons_self q rest), List.mem_cons_self q rest⟩
  exact List.length_pos.2 (List.ne_nil_of_mem hq)

theorem dpo_global_mask_sum (pc pr rc rr vc vr : List ℝ) (beta gm : ℝ)
    (idxs : List Nat) (rf : Bool)
    (hl1 : pr.length = pc.length) (hl2 : rc.length = pc.length)
    (hl3 : rr.length = pc.length) :
    (dpo_loss pc pr rc rr vc vr beta gm idxs rf).global_mask.sum =
      (((List.range pc.length).filter (fun p => decide (p ∈ idxs))).length : ℕ) := by
  have hA : (List.zipWith (fun x y => x + y)
      (List.zipWith (fun x y => x - y) (List.zipWith (fun x y => x - y) pc pr) rc)
      rr).length = pc.length := by
    simp [List.length_zipWith, hl1, hl2, hl3]
  have hmask : (dpo_loss pc pr rc rr vc vr beta gm idxs rf).global_mask =
      one_hot_like pc.length idxs := by
    show one_hot_like (List.zipWith (fun x y => x + y)
      (List.zipWith (fun x y => x - y) (List.zipWith (fun x y => x - y) pc pr) rc)
      rr).length idxs = one_hot_like pc.length idxs
    rw [hA]
  rw [hmask]
  exact sum_indicator (List.range pc.length) idxs

/-- C2 amended: the number of selected examples (the sum of the 0/1 global
mask) equals `⌊0.8·N⌋` — `int(N * (1 - 0.2))`, a floor, not a ceiling — in
the weighted `torch.multinomial` path, and is at most `⌊0.8·N⌋` in the
degenerate `random.choices` fallback path (which samples with replacement,
so duplicates can make it smaller). -/
theorem C2_selected_count (pc pr rc rr vc vr : List ℝ) (beta gm : ℝ)
    (idxs : List Nat) (rf : Bool)
    (hl1 : pr.length = pc.length) (hl2 : rc.length = pc.length)
    (hl3 : rr.length = pc.length) :
    (MultinomialDraw pc.length idxs →
      (dpo_loss pc pr rc rr vc vr beta gm idxs rf).global_mask.sum =
        (sample_num pc.length : ℕ)) ∧
    (ChoicesDraw pc.length idxs →
      (dpo_loss pc pr rc rr vc vr beta gm idxs rf).global_mask.sum ≤
        (sample_num pc.length : ℕ)) := by
  have hs := dpo_global_mask_sum pc pr rc rr vc vr beta gm idxs rf hl1 hl2 hl3
  constructor
  · rintro ⟨hlen, hnd, hlt⟩
    rw [hs, filter_range_count pc.length idxs hnd hlt, hlen]
  · rintro ⟨hlen, hlt⟩
    rw [hs]
    have := filter_range_le pc.length idxs
    rw [← hlen]
    exact_mod_cast this

/-- Witness for C2 at batch size 4 with the multinomial draw `[0, 1, 2]`. -/
theorem C2_selected_count_witness :
    MultinomialDraw ([(0 : ℝ), 0, 0, 0]).length [0, 1, 2] ∧
    (dpo_loss [(0 : ℝ), 0, 0, 0] [0, 0, 0, 0] [0, 0, 0, 0] [0, 0, 0, 0] [0, 0, 0, 0]
        [0, 0, 0, 0] (1/2) 0 [0, 1, 2] false).global_mask.sum =
      (sample_num ([(0 : ℝ), 0, 0, 0]).length : ℕ) :=
  ⟨by constructor; decide; constructor; decide; decide,
   (C2_selected_count [0, 0, 0, 0] [0, 0, 0, 0] [0, 0, 0, 0] [0, 0, 0, 0] [0, 0, 0, 0]
      [0, 0, 0, 0] (1/2) 0 [0, 1, 2] false rfl rfl rfl).1
    (by constructor; decide; constructor; decide; decide)⟩

/-- C2 counterexample: at global batch size `N = 4` the code selects
`int(4 * 0.8) = 3` examples, but `⌈0.8 × 4⌉ = 4`. -/
theorem C2_counterexample :
    MultinomialDraw 4 [0, 1, 2] ∧
    (dpo_loss [(0 : ℝ), 0, 0, 0] [0, 0, 0, 0] [0, 0, 0, 0] [0, 0, 0, 0] [0, 0, 0, 0]
        [0, 0, 0, 0] (1/2) 0 [0, 1, 2] false).global_mask.sum = 3 ∧
    ⌈(4 : ℚ) * (8 / 10)⌉ = 4 ∧ (3 : ℝ) ≠ 4 := by
  refine ⟨?_, ?_, ?_, by norm_num⟩
  · exact ⟨by decide, by decide, by decide⟩
  · have hs := dpo_global_mask_sum [(0 : ℝ), 0, 0, 0] [0, 0, 0, 0] [0, 0, 0, 0] [0, 0, 0, 0]
      [0, 0, 0, 0] [0, 0, 0, 0] (1/2) 0 [0, 1, 2] false rfl rfl rfl
    rw [hs, show ((List.range ([(0 : ℝ), 0, 0, 0]).length).filter
      (fun p => decide (p ∈ [0, 1, 2]))).length = 3 from by decide]
    norm_num
  · norm_num
    rw [Int.ceil_eq_iff]
    norm_num

/-- C4 amended: in the degenerate fallback (taken when the weight sample
sums to zero or contains `+inf`; a NaN weight takes the other branch and
aborts in `torch.multinomial`, see C9) the code calls `random.choices`,
which samples WITH replacement; whenever `1 ≤ sample_num` (batch size
`≥ 2`) the resulting 0/1 mask has between 1 and `sample_num` ones (exactly
`sample_num` only when the draw happens to be duplicate-free), not always
exactly `sample_num`. -/
theorem C4_fallback_mask_bounds (pc pr rc rr vc vr : List ℝ) (beta gm : ℝ)
    (idxs : List Nat) (rf : Bool)
    (hl1 : pr.length = pc.length) (hl2 : rc.length = pc.length)
    (hl3 : rr.length = pc.length)
    (hdraw : ChoicesDraw pc.length idxs) (hpos : 1 ≤ sample_num pc.length) :
    1 ≤ (dpo_loss pc pr rc rr vc vr beta gm idxs rf).global_mask.sum ∧
    (dpo_loss pc pr rc rr vc vr beta gm idxs rf).global_mask.sum ≤
      (sample_num pc.length : ℕ) := by
  obtain ⟨hlen, hlt⟩ := hdraw
  have hs := dpo_global_mask_sum pc pr rc rr vc vr beta gm idxs rf hl1 hl2 hl3
  constructor
  · rw [hs]
    have hne : idxs ≠ [] := by
      intro hnil
      rw [hnil] at hlen
      simp at hlen
      omega
    have := filter_range_pos pc.length idxs hne hlt
    exact_mod_cast this
  · rw [hs, ← hlen]
    exact_mod_cast filter_range_le pc.length idxs

/-- Witness for C4 at batch size 5 with the duplicate fallback draw
`[0, 0, 0, 0]`. -/
theorem C4_fallback_mask_bounds_witness :
    ChoicesDraw ([(0 : ℝ), 0, 0, 0, 0]).length [0, 0, 0, 0] ∧
    1 ≤ sample_num ([(0 : ℝ), 0, 0, 0, 0]).length ∧
    (1 ≤ (dpo_loss [(0 : ℝ), 0, 0, 0, 0] [0, 0, 0, 0, 0] [0, 0, 0, 0, 0] [0, 0, 0, 0, 0]
        [0, 0, 0, 0, 0] [0, 0, 0, 0, 0] 0 0 [0, 0, 0, 0] false).global_mask.sum ∧
      (dpo_loss [(0 : ℝ), 0, 0, 0, 0] [0, 0, 0, 0, 0] [0, 0, 0, 0, 0] [0, 0, 0, 0, 0]
        [0, 0, 0, 0, 0] [0, 0, 0, 0, 0] 0 0 [0, 0, 0, 0] false).global_mask.sum ≤
        (sample_num ([(0 : ℝ), 0, 0, 0, 0]).length : ℕ)) :=
  ⟨⟨by decide, by decide⟩, by decide,
   C4_fallback_mask_bounds [0, 0, 0, 0, 0] [0, 0, 0, 0, 0] [0, 0, 0, 0, 0] [0, 0, 0, 0, 0]
     [0, 0, 0, 0, 0] [0, 0, 0, 0, 0] 0 0 [0, 0, 0, 0] false rfl rfl rfl
     ⟨by decide, by decide⟩ (by decide)⟩

/-- C4 counterexample: the fallback draw `[0, 0, 0, 0]` (a legal
`random.choices` output for batch size 5, where `sample_num = 4`) yields a
mask with a single 1, not 4 — the fallback is NOT a without-replacement
selection of `sample_num` examples. -/
theorem C4_counterexample :
    ChoicesDraw 5 [0, 0, 0, 0] ∧
    (dpo_loss [(0 : ℝ), 0, 0, 0, 0] [0, 0, 0, 0, 0] [0, 0, 0, 0, 0] [0, 0, 0, 0, 0]
        [0, 0, 0, 0, 0] [0, 0, 0, 0, 0] 0 0 [0, 0, 0, 0] false).global_mask.sum = 1 ∧
    sample_num 5 = 4 ∧ (1 : ℝ) ≠ 4 := by
  refine ⟨⟨by decide, by decide⟩, ?_, by decide, by norm_num⟩
  have hs := dpo_global_mask_sum [(0 : ℝ), 0, 0, 0, 0] [0, 0, 0, 0, 0] [0, 0, 0, 0, 0]
    [0, 0, 0, 0, 0] [0, 0, 0, 0, 0] [0, 0, 0, 0, 0] 0 0 [0, 0, 0, 0] false rfl rfl rfl
  rw [hs, show ((List.range ([(0 : ℝ), 0, 0, 0, 0]).length).filter
    (fun p => decide (p ∈ [0, 0, 0, 0]))).length = 1 from by decide]
  norm_num

/-! ## Sigmoid facts -/

theorem sigmoid_pos (x : ℝ) : 0 < sigmoid x := by
  unfold sigmoid
  positivity

theorem sigmoid_lt_one (x : ℝ) : sigmoid x < 1 := by
  unfold sigmoid
  rw [div_lt_one (by positivity)]
  have := Real.exp_pos (-x)
  linarith

theorem sigmoid_strictMono : StrictMono sigmoid := by
  intro x y hxy
  unfold sigmoid
  apply one_div_lt_one_div_of_lt
  · positivity
  · have := Real.exp_lt_exp.2 (neg_lt_neg hxy)
    linarith

/-! ## C7: the effective temperature -/

/-- C7: the effective temperature returned by `dpo_loss` equals
`beta × (sigmoid(aux_chosen − aux_rejected)/sigmoid K) ×
(mean(sigmoid A [sampled])/sigmoid gap_mean)` clamped below at `1e-3`;
every component of the returned `beta_used` is `≥ 1e-3`; and the reported
clamp count equals the number of examples whose pre-clamp value is
`≤ 1e-3`. -/
theorem C7_effective_beta (pc pr rc rr vc vr : List ℝ) (beta gm : ℝ)
    (idxs : List Nat) (rf : Bool) :
    (dpo_loss pc pr rc rr vc vr beta gm idxs rf).beta_used =
      List.zipWith (fun x y => max (1 / 1000)
        (beta * (sigmoid (x - y) / sigmoid Kconst) *
          ((dpo_loss pc pr rc rr vc vr beta gm idxs rf).A_sigmoid_average / sigmoid gm)))
        vc vr ∧
    (∀ u ∈ (dpo_loss pc pr rc rr vc vr beta gm idxs rf).beta_used, 1 / 1000 ≤ u) ∧
    (dpo_loss pc pr rc rr vc vr beta gm idxs rf).beta_clamped =
      (List.zipWith (fun x y =>
        beta * (sigmoid (x - y) / sigmoid Kconst) *
          ((dpo_loss pc pr rc rr vc vr beta gm idxs rf).A_sigmoid_average / sigmoid gm))
        vc vr).countP (fun u => decide (u ≤ 1 / 1000)) := by
  have epre : ((List.zipWith (fun x y => sigmoid (x - y) / sigmoid Kconst) vc vr).map
      (fun x => x *
        ((dpo_loss pc pr rc rr vc vr beta gm idxs rf).A_sigmoid_average / sigmoid gm))).map
      (fun x => beta * x) =
      List.zipWith (fun x y =>
        beta * (sigmoid (x - y) / sigmoid Kconst) *
          ((dpo_loss pc pr rc rr vc vr beta gm idxs rf).A_sigmoid_average / sigmoid gm))
        vc vr := by
    rw [List.map_map, List.map_zipWith]
    congr 1
    funext x y
    simp only [Function.comp_apply]
    ring
  have e1 : (dpo_loss pc pr rc rr vc vr beta gm idxs rf).beta_used =
      (((List.zipWith (fun x y => sigmoid (x - y) / sigmoid Kconst) vc vr).map
        (fun x => x *
          ((dpo_loss pc pr rc rr vc vr beta gm idxs rf).A_sigmoid_average / sigmoid gm))).map
        (fun x => beta * x)).map (fun x => max (1 / 1000) x) := rfl
  have e2 : (dpo_loss pc pr rc rr vc vr beta gm idxs rf).beta_clamped =
      (((List.zipWith (fun x y => sigmoid (x - y) / sigmoid Kconst) vc vr).map
        (fun x => x *
          ((dpo_loss pc pr rc rr vc vr beta gm idxs rf).A_sigmoid_average / sigmoid gm))).map
        (fun x => beta * x)).countP (fun u => decide (u ≤ 1 / 1000)) := rfl
  refine ⟨?_, ?_, ?_⟩
  · rw [e1, epre, List.map_zipWith]
  · intro u hu
    rw [e1] at hu
    rcases List.mem_map.1 hu with ⟨v, _, rfl⟩
    exact le_max_left _ _
  · rw [e2, epre]

/-! ## C3: reference_free and the reference log-probs -/

/-- C3 amended: with `reference_free = True` the preference logits term
(`pi_logratios - ref_logratios` with the reference term zeroed) is
independent of the reference log-probs — but the full returned losses are
NOT, because `A_gap`, the sampling weights and `beta_used` are computed
from the raw reference log-probs unconditionally (see
`C3_counterexample`). -/
theorem C3_reference_free_logits (pc pr rc rr rc2 rr2 : List ℝ) :
    dpo_logits pc pr rc rr true = dpo_logits pc pr rc2 rr2 true := rfl

/-- C3 counterexample: two runs with `reference_free = True` that differ
only in the reference chosen log-probs (`[0,0]` versus `[3,0]`), same
random draw `[0]`, produce different losses: the reference log-probs leak
into the loss through `A_gap` and the adaptive `beta_used`. -/
theorem C3_counterexample :
    (dpo_loss [1, 0] [0, 0] [0, 0] [0, 0] [0, 0] [0, 0] (1/2) 0 [0] true).losses ≠
    (dpo_loss [1, 0] [0, 0] [3, 0] [0, 0] [0, 0] [0, 0] (1/2) 0 [0] true).losses := by
  have h1 : (dpo_loss [1, 0] [0, 0] [0, 0] [0, 0] [0, 0] [0, 0] (1/2) 0 [0] true).losses.getD
      0 0 =
      -Real.log (sigmoid (max (1 / 1000) (1 / 2 * (sigmoid ((0 : ℝ) - 0) / sigmoid Kconst *
        ((sigmoid ((1 : ℝ) - 0 - 0 + 0) + 0) / ((1 : ℕ) : ℝ) / sigmoid 0))) *
        ((1 : ℝ) - 0))) := rfl
  have h2 : (dpo_loss [1, 0] [0, 0] [3, 0] [0, 0] [0, 0] [0, 0] (1/2) 0 [0] true).losses.getD
      0 0 =
      -Real.log (sigmoid (max (1 / 1000) (1 / 2 * (sigmoid ((0 : ℝ) - 0) / sigmoid Kconst *
        ((sigmoid ((1 : ℝ) - 0 - 3 + 0) + 0) / ((1 : ℕ) : ℝ) / sigmoid 0))) *
        ((1 : ℝ) - 0))) := rfl
  have hclean : ∀ t : ℝ, (1 / 2 * (sigmoid ((0 : ℝ) - 0) / sigmoid Kconst *
      ((sigmoid t + 0) / ((1 : ℕ) : ℝ) / sigmoid 0))) = sigmoid t / (2 * sigmoid Kconst) := by
    intro t
    have hKpos := sigmoid_pos Kconst
    have h0pos := sigmoid_pos 0
    rw [show ((0 : ℝ) - 0) = 0 by ring]
    field_simp
    ring
  have ht1 : ((1 : ℝ) - 0 - 0 + 0) = 1 := by ring
  have ht2 : ((1 : ℝ) - 0 - 3 + 0) = -2 := by ring
  rw [ht1, hclean 1] at h1
  rw [ht2, hclean (-2)] at h2
  have hKpos := sigmoid_pos Kconst
  have hKlt := sigmoid_lt_one Kconst
  have hexp2 : Real.exp 2 < 9 := by
    have he1 : Real.exp 1 < 2.7182818286 := Real.exp_one_lt_d9
    have he2 : Real.exp 2 = Real.exp 1 * Real.exp 1 := by
      rw [← Real.exp_add]
      norm_num
    rw [he2]
    nlinarith [Real.exp_pos 1]
  have hs2_lb : (1 : ℝ) / 10 < sigmoid (-2) := by
    unfold sigmoid
    rw [neg_neg]
    rw [lt_div_iff (by positivity)]
    nlinarith
  have hlb2 : (1 : ℝ) / 1000 < sigmoid (-2) / (2 * sigmoid Kconst) := by
    rw [lt_div_iff (by positivity)]
    nlinarith
  have hmono : sigmoid (-2) < sigmoid 1 := sigmoid_strictMono (by norm_num)
  have hlb1 : (1 : ℝ) / 1000 < sigmoid 1 / (2 * sigmoid Kconst) := by
    rw [lt_div_iff (by positivity)]
    rw [lt_div_iff (by positivity)] at hlb2
    nlinarith
  have hvlt : sigmoid (-2) / (2 * sigmoid Kconst) < sigmoid 1 / (2 * sigmoid Kconst) := by
    gcongr
  rw [max_eq_right (le_of_lt hlb1), show ((1 : ℝ) - 0) = 1 by ring, mul_one] at h1
  rw [max_eq_right (le_of_lt hlb2), show ((1 : ℝ) - 0) = 1 by ring, mul_one] at h2
  intro heq
  have h0 := congrArg (fun l => l.getD 0 0) heq
  simp only at h0
  rw [h1, h2] at h0
  have hσ : sigmoid (sigmoid (-2) / (2 * sigmoid Kconst)) <
      sigmoid (sigmoid 1 / (2 * sigmoid Kconst)) := sigmoid_strictMono hvlt
  have hlog := Real.log_lt_log (sigmoid_pos _) hσ
  linarith

/-! ## C9: a NaN policy log-prob aborts the loss computation -/

theorem nadd_none_left (y : Option ℝ) : nadd none y = none := by
  cases y <;> rfl

theorem nadd_none_right (x : Option ℝ) : nadd x none = none := by
  cases x <;> rfl

theorem nsub_none_left (y : Option ℝ) : nsub none y = none := by
  cases y <;> rfl

theorem nmul_none_right (x : Option ℝ) : nmul x none = none := by
  cases x <;> rfl

theorem foldl_nadd_none (l : List (Option ℝ)) : l.foldl nadd none = none := by
  induction l with
  | nil => rfl
  | cons x rest ih =>
    rw [List.foldl_cons, nadd_none_left]
    exact ih

theorem nsum_of_none_mem {ws : List (Option ℝ)} (h : none ∈ ws) : nsum ws = none := by
  unfold nsum
  generalize some (0 : ℝ) = acc
  induction ws generalizing acc with
  | nil => exact absurd h (List.not_mem_nil none)
  | cons x rest ih =>
    rcases List.mem_cons.1 h with hx | hrest
    · rw [List.foldl_cons, ← hx, nadd_none_right]
      exact foldl_nadd_none rest
    · rw [List.foldl_cons]
      exact ih hrest _

theorem multinomialOk_of_none_mem {ws : List (Option ℝ)} (h : none ∈ ws) :
    multinomialOk ws = false := by
  unfold multinomialOk
  rw [List.all_eq_false]
  exact ⟨none, h, by simp⟩

theorem zipWith_get?_some {α β γ : Type} (f : α → β → γ) :
    ∀ (l1 : List α) (l2 : List β) (i : Nat) (x : α) (y : β),
      l1.get? i = some x → l2.get? i = some y →
      (List.zipWith f l1 l2).get? i = some (f x y)
  | [], _, i, _, _, h1, _ => by simp at h1
  | _ :: _, [], i, _, _, _, h2 => by simp at h2
  | a :: l1, b :: l2, 0, x, y, h1, h2 => by
    simp only [List.get?] at h1 h2
    rcases Option.some.injEq _ _ ▸ h1 with rfl
    rcases Option.some.injEq _ _ ▸ h2 with rfl
    rfl
  | a :: l1, b :: l2, i + 1, x, y, h1, h2 =>
    zipWith_get?_some f l1 l2 i x y h1 h2

/-- C9: if any entry of `policy_chosen_logps` is NaN, the loss computation
raises (`torch.multinomial` rejects the NaN-poisoned weight tensor) before
producing a loss value: the degenerate-weights branch is not taken (a NaN
sum compares unequal to 0) and the validation error is raised. -/
theorem C9_nan_aborts (pc pr rc rr : List (Option ℝ)) (beta : ℝ) (gm : Option ℝ)
    (fd md : List Nat) (i : Nat)
    (hnan : pc.get? i = some none)
    (hl1 : pr.length = pc.length) (hl2 : rc.length = pc.length)
    (hl3 : rr.length = pc.length) :
    dpo_loss_nan pc pr rc rr beta gm fd md =
      Except.error "probability tensor contains either inf, nan or element < 0" := by
  have hi : i < pc.length := by
    by_contra hge
    rw [List.get?_eq_none.2 (by omega)] at hnan
    exact Option.noConfusion hnan
  have hy1 : pr.get? i = some (pr.get ⟨i, by omega⟩) := List.get?_eq_get _
  have hy2 : rc.get? i = some (rc.get ⟨i, by omega⟩) := List.get?_eq_get _
  have hy3 : rr.get? i = some (rr.get ⟨i, by omega⟩) := List.get?_eq_get _
  have hA : (List.zipWith nadd (List.zipWith nsub (List.zipWith nsub pc pr) rc) rr).get? i =
      some none := by
    have s1 := zipWith_get?_some nsub pc pr i none _ hnan hy1
    rw [nsub_none_left] at s1
    have s2 := zipWith_get?_some nsub _ rc i none _ s1 hy2
    rw [nsub_none_left] at s2
    have s3 := zipWith_get?_some nadd _ rr i none _ s2 hy3
    rw [nadd_none_left] at s3
    exact s3
  have hws : ((List.zipWith nadd (List.zipWith nsub (List.zipWith nsub pc pr) rc) rr).map
      (fun x => nexp (nmul (some (-0.5)) (nmul (nsub x gm) (nsub x gm))))).get? i =
      some none := by
    rw [List.get?_map, hA, Option.map_some']
    rw [nsub_none_left, nmul_none_right, nmul_none_right]
    rfl
  have hmem : none ∈ ((List.zipWith nadd (List.zipWith nsub (List.zipWith nsub pc pr) rc)
      rr).map (fun x => nexp (nmul (some (-0.5)) (nmul (nsub x gm) (nsub x gm))))) :=
    List.get?_mem hws
  have hsum := nsum_of_none_mem hmem
  have hok := multinomialOk_of_none_mem hmem
  simp only [dpo_loss_nan]
  rw [hsum, hok]
  rfl

/-- Witness for C9: a single-example batch whose policy chosen log-prob is
NaN. -/
theorem C9_nan_aborts_witness :
    ([(none : Option ℝ)].get? 0 = some none) ∧
    ([(some 0 : Option ℝ)].length = [(none : Option ℝ)].length) ∧
    dpo_loss_nan [none] [some 0] [some 0] [some 0] 1 (some 0) [] [0] =
      Except.error "probability tensor contains either inf, nan or element < 0" :=
  ⟨rfl, rfl, C9_nan_aborts [none] [some 0] [some 0] [some 0] 1 (some 0) [] [0] 0
    rfl rfl rfl rfl⟩

/-! ## C6: aligning a sequence with itself

The key fact is that on `a = b = c` the DP loop of `find_longest_match`
only ever installs *diagonal* bests (`besti = bestj`), because any
off-diagonal run is dominated by a diagonal run that the loop visits no
later (the `chain` function below is the length of the run `j2len` tracks,
and `chain c i j ≤ chain c (min i j) (min i j)`).  The extension loops then
grow a diagonal best to the full sequence. -/

theorem mem_b2j {b : List Int} {x : Int} {j : Nat} :
    j ∈ b2j b x ↔ isPopular b x = false ∧ b.get? j = some x := by
  unfold b2j b2jRaw
  by_cases hp : isPopular b x
  · rw [if_pos hp]
    simp [hp]
  · rw [if_neg hp]
    simp only [List.mem_filter, List.mem_range, decide_eq_true_eq,
      Bool.not_eq_true] at hp ⊢
    constructor
    · intro hmem
      exact ⟨by simpa using hp, hmem.2⟩
    · intro hmem
      refine ⟨?_, hmem.2⟩
      have := List.get?_eq_some.1 hmem.2
      exact this.1

theorem getD_eq_of_get? {c : List Int} {j : Nat} {x : Int} (h : c.get? j = some x) :
    c.getD j 0 = x := by
  rw [List.getD_eq_getElem?_getD, ← List.get?_eq_getElem?, h]
  rfl

/-- From a hit `(i, j)` on `c` versus itself, both diagonal hits follow
(the two cells hold the same element, which is non-popular). -/
theorem hit_diag {c : List Int} {i j : Nat} (hi : i < c.length)
    (h : j ∈ b2j c (c.getD i 0)) :
    i ∈ b2j c (c.getD i 0) ∧ j ∈ b2j c (c.getD j 0) := by
  obtain ⟨hpop, hget⟩ := mem_b2j.1 h
  have hgi : c.get? i = some (c.getD i 0) := by
    rcases List.get?_eq_get (by omega : i < c.length) with hg
    rw [hg]
    rw [getD_eq_of_get? hg]
  have hdj : c.getD j 0 = c.getD i 0 := getD_eq_of_get? hget
  exact ⟨mem_b2j.2 ⟨hpop, hgi⟩, by rw [hdj]; exact h⟩

theorem chain_zero_row (c : List Int) (j : Nat) :
    chain c 0 j = if j ∈ b2j c (c.getD 0 0) then 1 else 0 := rfl

theorem chain_succ_zero (c : List Int) (i : Nat) :
    chain c (i + 1) 0 = if 0 ∈ b2j c (c.getD (i + 1) 0) then 1 else 0 := rfl

theorem chain_succ_succ (c : List Int) (i j : Nat) :
    chain c (i + 1) (j + 1) =
      if j + 1 ∈ b2j c (c.getD (i + 1) 0) then chain c i j + 1 else 0 := rfl

theorem chain_pos_hit {c : List Int} {i j : Nat} (h : chain c i j ≠ 0) :
    j ∈ b2j c (c.getD i 0) := by
  match i, j with
  | 0, j =>
    rw [chain_zero_row] at h
    by_cases hm : j ∈ b2j c (c.getD 0 0)
    · exact hm
    · rw [if_neg hm] at h
      exact absurd rfl h
  | i + 1, 0 =>
    rw [chain_succ_zero] at h
    by_cases hm : 0 ∈ b2j c (c.getD (i + 1) 0)
    · exact hm
    · rw [if_neg hm] at h
      exact absurd rfl h
  | i + 1, j + 1 =>
    rw [chain_succ_succ] at h
    by_cases hm : j + 1 ∈ b2j c (c.getD (i + 1) 0)
    · exact hm
    · rw [if_neg hm] at h
      exact absurd rfl h

theorem chain_lt_length {c : List Int} {i j : Nat} (h : chain c i j ≠ 0) :
    j < c.length := by
  have := (mem_b2j.1 (chain_pos_hit h)).2
  exact (List.get?_eq_some.1 this).1

/-- `chain c i j ≤ chain c j j` when `j ≤ i < |c|`. -/
theorem chain_le_diag_left (c : List Int) :
    ∀ j i : Nat, j ≤ i → i < c.length → chain c i j ≤ chain c j j := by
  intro j
  induction j using Nat.strong_induction_on with
  | _ j ihj =>
    intro i hji hi
    by_cases hz : chain c i j = 0
    · rw [hz]
      exact Nat.zero_le _
    · have hhit := chain_pos_hit hz
      have hdiag := (hit_diag hi hhit).2
      match i, j, hji with
      | i, 0, _ =>
        have h1 : chain c i 0 ≤ 1 := by
          match i with
          | 0 =>
            rw [chain_zero_row]
            split <;> omega
          | i + 1 =>
            rw [chain_succ_zero]
            split <;> omega
        have h2 : chain c 0 0 = 1 := by
          rw [chain_zero_row, if_pos hdiag]
        omega
      | i + 1, j + 1, hji =>
        have e1 : chain c (i + 1) (j + 1) = chain c i j + 1 := by
          rw [chain_succ_succ, if_pos hhit]
        have e2 : chain c (j + 1) (j + 1) = chain c j j + 1 := by
          rw [chain_succ_succ, if_pos hdiag]
        have := ihj j (by omega) i (by omega) (by omega)
        omega

/-- `chain c i j ≤ chain c i i` when `i ≤ j` and `i < |c|`. -/
theorem chain_le_diag_right (c : List Int) :
    ∀ i j : Nat, i ≤ j → i < c.length → chain c i j ≤ chain c i i := by
  intro i
  induction i using Nat.strong_induction_on with
  | _ i ihi =>
    intro j hij hi
    by_cases hz : chain c i j = 0
    · rw [hz]
      exact Nat.zero_le _
    · have hhit := chain_pos_hit hz
      have hdiag := (hit_diag hi hhit).1
      match i, j, hij with
      | 0, j, _ =>
        have h1 : chain c 0 j = 1 := by
          rw [chain_zero_row, if_pos hhit]
        have h2 : chain c 0 0 = 1 := by
          rw [chain_zero_row, if_pos hdiag]
        omega
      | i + 1, j + 1, hij =>
        have e1 : chain c (i + 1) (j + 1) = chain c i j + 1 := by
          rw [chain_succ_succ, if_pos hhit]
        have e2 : chain c (i + 1) (i + 1) = chain c i i + 1 := by
          rw [chain_succ_succ, if_pos hdiag]
        have := ihi i (by omega) j (by omega) (by omega)
        omega

theorem chain_zero_of_not_hit {c : List Int} {i j : Nat}
    (h : j ∉ b2j c (c.getD i 0)) : chain c i j = 0 := by
  by_contra hz
  exact h (chain_pos_hit hz)

/-- The `k` computed by the inner loop equals `chain` at the current cell,
when the previous row of `j2len` holds the previous row of `chain`. -/
theorem chain_eq_k {c : List Int} {i j : Nat} (hhit : j ∈ b2j c (c.getD i 0))
    {old : Nat → Nat} (hold : ∀ jj, old jj = if i = 0 then 0 else chain c (i - 1) jj) :
    j2lenGet old j + 1 = chain c i j := by
  match i, j with
  | 0, j =>
    have : j2lenGet old j = 0 := by
      unfold j2lenGet
      split
      · rfl
      · rw [hold]
        rfl
    rw [this, chain_zero_row, if_pos hhit]
  | i + 1, 0 =>
    have : j2lenGet old 0 = 0 := rfl
    rw [this, chain_succ_zero, if_pos hhit]
  | i + 1, j + 1 =>
    have : j2lenGet old (j + 1) = chain c i j := by
      unfold j2lenGet
      rw [if_neg (by omega), hold]
      rfl
    rw [this, chain_succ_succ, if_pos hhit]

theorem b2j_lt_length {b : List Int} {x : Int} {j : Nat} (h : j ∈ b2j b x) :
    j < b.length :=
  (List.get?_eq_some.1 (mem_b2j.1 h).2).1

theorem b2j_filter_id (b : List Int) (x : Int) :
    (b2j b x).filter (fun j => decide (0 ≤ j) && decide (j < b.length)) = b2j b x := by
  apply List.filter_eq_self.2
  intro j hj
  simp only [Bool.and_eq_true, decide_eq_true_eq]
  exact ⟨Nat.zero_le j, b2j_lt_length hj⟩

theorem b2j_sorted (b : List Int) (x : Int) : (b2j b x).Pairwise (· < ·) := by
  unfold b2j
  split
  · exact List.Pairwise.nil
  · unfold b2jRaw
    exact (List.pairwise_lt_range b.length).filter _

/-- Inner-loop invariant on `c` versus itself: processing the ascending
hit list keeps the best diagonal, keeps it above every earlier diagonal
chain, and fills `newj2len` with the current row of `chain`. -/
theorem row_fold_diag (c : List Int) (i : Nat) (hi : i < c.length)
    (old : Nat → Nat)
    (hold : ∀ jj, old jj = if i = 0 then 0 else chain c (i - 1) jj) :
    ∀ (rem : List Nat) (g : Nat → Nat) (best : Nat × Nat × Nat),
      (∀ j ∈ rem, j ∈ b2j c (c.getD i 0)) →
      rem.Pairwise (· < ·) →
      best.1 = best.2.1 →
      (∀ i2 < i, chain c i2 i2 ≤ best.2.2) →
      (i ∉ rem → i ∈ b2j c (c.getD i 0) → chain c i i ≤ best.2.2) →
      (∀ jj, jj ∉ rem → (rem.foldl (processJ i old) (g, best)).1 jj = g jj) ∧
      (∀ jj ∈ rem, (rem.foldl (processJ i old) (g, best)).1 jj = chain c i jj) ∧
      (rem.foldl (processJ i old) (g, best)).2.1 =
        (rem.foldl (processJ i old) (g, best)).2.2.1 ∧
      (∀ i2 < i, chain c i2 i2 ≤ (rem.foldl (processJ i old) (g, best)).2.2.2) ∧
      (i ∈ b2j c (c.getD i 0) → chain c i i ≤ (rem.foldl (processJ i old) (g, best)).2.2.2)
  | [], g, best, _, _, hdiag, hdom, hdone => by
    refine ⟨fun jj _ => rfl, fun jj hjj => absurd hjj (List.not_mem_nil jj), hdiag, hdom, ?_⟩
    exact fun hhit => hdone (List.not_mem_nil i) hhit
  | j :: rest, g, best, hsub, hsort, hdiag, hdom, hdone => by
    have hhit : j ∈ b2j c (c.getD i 0) := hsub j (List.mem_cons_self j rest)
    have hrest_gt : ∀ x ∈ rest, j < x := (List.pairwise_cons.1 hsort).1
    have hk : j2lenGet old j + 1 = chain c i j := chain_eq_k hhit hold
    have hstep : processJ i old (g, best) j =
        ((fun jj => if jj = j then j2lenGet old j + 1 else g jj),
          if best.2.2 < j2lenGet old j + 1
            then (i + 1 - (j2lenGet old j + 1), j + 1 - (j2lenGet old j + 1),
              j2lenGet old j + 1)
            else best) := rfl
    by_cases hup : best.2.2 < j2lenGet old j + 1
    · -- an update: it can only happen on the diagonal
      have hij : i = j := by
        by_contra hne
        rcases Nat.lt_or_ge j i with hji | hji
        · have h1 : chain c i j ≤ chain c j j := chain_le_diag_left c j i (by omega) hi
          have h2 : chain c j j ≤ best.2.2 := hdom j hji
          omega
        · have hji2 : i < j := by omega
          have h1 : chain c i j ≤ chain c i i := chain_le_diag_right c i j (by omega) hi
          have hii : i ∈ b2j c (c.getD i 0) := (hit_diag hi hhit).1
          have hnotin : i ∉ j :: rest := by
            intro hin
            rcases List.mem_cons.1 hin with rfl | hin
            · omega
            · have := hrest_gt i hin
              omega
          have h2 : chain c i i ≤ best.2.2 := hdone hnotin hii
          omega
      subst hij
      have hres := row_fold_diag c i hi old hold rest
        (fun jj => if jj = i then j2lenGet old i + 1 else g jj)
        (i + 1 - (j2lenGet old i + 1), i + 1 - (j2lenGet old i + 1), j2lenGet old i + 1)
        (fun x hx => hsub x (List.mem_cons_of_mem i hx))
        (List.pairwise_cons.1 hsort).2
        rfl
        (fun i2 hi2 => by
          show chain c i2 i2 ≤ j2lenGet old i + 1
          have := hdom i2 hi2
          omega)
        (fun _ _ => by
          show chain c i i ≤ j2lenGet old i + 1
          omega)
      rw [List.foldl_cons, hstep, if_pos hup]
      refine ⟨?_, ?_, hres.2.2.1, hres.2.2.2.1, hres.2.2.2.2⟩
      · intro jj hjj
        have hne : jj ≠ i := fun hc => hjj (hc ▸ List.mem_cons_self i rest)
        have hnr : jj ∉ rest := fun hc => hjj (List.mem_cons_of_mem i hc)
        rw [hres.1 jj hnr]
        show (if jj = i then j2lenGet old i + 1 else g jj) = g jj
        rw [if_neg hne]
      · intro jj hjj
        rcases List.mem_cons.1 hjj with rfl | hjj
        · have hnr : jj ∉ rest := by
            intro hc
            have := hrest_gt jj hc
            omega
          rw [hres.1 jj hnr]
          show (if jj = jj then j2lenGet old jj + 1 else g jj) = chain c jj jj
          rw [if_pos rfl, hk]
        · exact hres.2.1 jj hjj
    · -- no update
      have hres := row_fold_diag c i hi old hold rest
        (fun jj => if jj = j then j2lenGet old j + 1 else g jj) best
        (fun x hx => hsub x (List.mem_cons_of_mem j hx))
        (List.pairwise_cons.1 hsort).2
        hdiag hdom
        (fun hni hhi => by
          by_cases hij : i = j
          · subst hij
            rw [← hk] at *
            omega
          · exact hdone (by
              intro hin
              rcases List.mem_cons.1 hin with rfl | hin
              · exact hij rfl
              · exact hni hin) hhi)
      rw [List.foldl_cons, hstep, if_neg hup]
      refine ⟨?_, ?_, hres.2.2.1, hres.2.2.2.1, hres.2.2.2.2⟩
      · intro jj hjj
        have hne : jj ≠ j := fun hc => hjj (hc ▸ List.mem_cons_self j rest)
        have hnr : jj ∉ rest := fun hc => hjj (List.mem_cons_of_mem j hc)
        rw [hres.1 jj hnr]
        show (if jj = j then j2lenGet old j + 1 else g jj) = g jj
        rw [if_neg hne]
      · intro jj hjj
        rcases List.mem_cons.1 hjj with rfl | hjj
        · have hnr : jj ∉ rest := by
            intro hc
            have := hrest_gt jj hc
            omega
          rw [hres.1 jj hnr]
          show (if jj = jj then j2lenGet old jj + 1 else g jj) = chain c i jj
          rw [if_pos rfl, hk]
        · exact hres.2.1 jj hjj

theorem processRow_diag (c : List Int) (i : Nat) (hi : i < c.length)
    (st : (Nat → Nat) × (Nat × Nat × Nat))
    (hold : ∀ jj, st.1 jj = if i = 0 then 0 else chain c (i - 1) jj)
    (hdiag : st.2.1 = st.2.2.1)
    (hdom : ∀ i2 < i, chain c i2 i2 ≤ st.2.2.2) :
    (∀ jj, (processRow c c 0 c.length st i).1 jj = chain c i jj) ∧
    (processRow c c 0 c.length st i).2.1 = (processRow c c 0 c.length st i).2.2.1 ∧
    (∀ i2 < i + 1, chain c i2 i2 ≤ (processRow c c 0 c.length st i).2.2.2) := by
  have hexp : processRow c c 0 c.length st i =
      (b2j c (c.getD i 0)).foldl (processJ i st.1) ((fun _ => 0), st.2) := by
    unfold processRow
    rw [b2j_filter_id]
  have hres := row_fold_diag c i hi st.1 hold (b2j c (c.getD i 0)) (fun _ => 0) st.2
    (fun _ hj => hj) (b2j_sorted c (c.getD i 0)) hdiag hdom
    (fun hni hhi => absurd hhi hni)
  rw [hexp]
  refine ⟨?_, hres.2.2.1, ?_⟩
  · intro jj
    by_cases hin : jj ∈ b2j c (c.getD i 0)
    · exact hres.2.1 jj hin
    · rw [hres.1 jj hin, chain_zero_of_not_hit hin]
  · intro i2 hi2
    by_cases hii : i2 = i
    · subst hii
      by_cases hhi : i2 ∈ b2j c (c.getD i2 0)
      · exact hres.2.2.2.2 hhi
      · rw [chain_zero_of_not_hit hhi]
        exact Nat.zero_le _
    · exact hres.2.2.2.1 i2 (by omega)

theorem flmLoop_diag_aux (c : List Int) :
    ∀ (len r : Nat) (st : (Nat → Nat) × (Nat × Nat × Nat)),
      r + len ≤ c.length →
      (∀ jj, st.1 jj = if r = 0 then 0 else chain c (r - 1) jj) →
      st.2.1 = st.2.2.1 →
      (∀ i2 < r, chain c i2 i2 ≤ st.2.2.2) →
      ((List.range' r len).foldl (processRow c c 0 c.length) st).2.1 =
        ((List.range' r len).foldl (processRow c c 0 c.length) st).2.2.1
  | 0, _, _, _, _, hdiag, _ => hdiag
  | len + 1, r, st, hlen, hold, hdiag, hdom => by
    have hr : r < c.length := by omega
    have hstep := processRow_diag c r hr st hold hdiag hdom
    have hnext := flmLoop_diag_aux c len (r + 1) (processRow c c 0 c.length st r)
      (by omega)
      (by
        intro jj
        rw [if_neg (by omega : ¬r + 1 = 0)]
        have : r + 1 - 1 = r := by omega
        rw [this]
        exact hstep.1 jj)
      hstep.2.1
      hstep.2.2
    rw [List.range'_succ, List.foldl_cons]
    exact hnext

theorem flmLoop_self_diag (c : List Int) :
    (flmLoop c c 0 c.length 0 c.length).1 = (flmLoop c c 0 c.length 0 c.length).2.1 := by
  unfold flmLoop
  exact flmLoop_diag_aux c (c.length - 0) 0 ((fun _ => 0), (0, 0, 0)) (by omega)
    (fun jj => by rw [if_pos rfl]) rfl (fun i2 hi2 => by omega)

theorem idxEq_self (c : List Int) (i : Nat) (hi : i < c.length) : idxEq c c i i = true := by
  unfold idxEq
  rw [List.get?_eq_get hi]
  simp

theorem extendBack_self_diag (c : List Int) :
    ∀ p s : Nat, p ≤ c.length → extendBack c c 0 0 p p s = (0, 0, p + s)
  | 0, s, _ => by
    rw [extendBack, dif_neg (by simp)]
    rw [Nat.zero_add]
  | p + 1, s, hp => by
    rw [extendBack, dif_pos ⟨by omega, by omega, by
      have : p + 1 - 1 = p := by omega
      rw [this]
      exact idxEq_self c p (by omega)⟩]
    have : p + 1 - 1 = p := by omega
    rw [this, extendBack_self_diag c p (s + 1) (by omega)]
    have : p + (s + 1) = p + 1 + s := by omega
    rw [this]

theorem extendFwd_self (c : List Int) :
    ∀ d k : Nat, c.length - k = d → k ≤ c.length →
      extendFwd c c c.length c.length 0 0 k = c.length := by
  intro d
  induction d using Nat.strong_induction_on with
  | _ d ih =>
    intro k hd hk
    by_cases heq : k = c.length
    · rw [extendFwd, dif_neg (by omega)]
      exact heq
    · have hklt : k < c.length := by omega
      rw [extendFwd, dif_pos ⟨by omega, by omega, by
        show idxEq c c (0 + k) (0 + k)
        rw [Nat.zero_add]
        exact idxEq_self c k hklt⟩]
      exact ih (c.length - (k + 1)) (by omega) (k + 1) rfl (by omega)

theorem find_longest_match_self (c : List Int) :
    find_longest_match c c 0 c.length 0 c.length = (0, 0, c.length) := by
  have hdiag := flmLoop_self_diag c
  have hb := flmLoop_cases c c 0 c.length 0 c.length
  have hle : (flmLoop c c 0 c.length 0 c.length).1 +
      (flmLoop c c 0 c.length 0 c.length).2.2 ≤ c.length := by
    rcases hb with heq | hbb
    · rw [heq]
      show 0 + 0 ≤ c.length
      omega
    · exact hbb.2.2.1
  have hext : extendBack c c 0 0 (flmLoop c c 0 c.length 0 c.length).1
      (flmLoop c c 0 c.length 0 c.length).2.1 (flmLoop c c 0 c.length 0 c.length).2.2 =
      (0, 0, (flmLoop c c 0 c.length 0 c.length).1 +
        (flmLoop c c 0 c.length 0 c.length).2.2) := by
    rw [← hdiag]
    exact extendBack_self_diag c _ _ (by omega)
  have e1 : find_longest_match c c 0 c.length 0 c.length =
      ((extendBack c c 0 0 (flmLoop c c 0 c.length 0 c.length).1
          (flmLoop c c 0 c.length 0 c.length).2.1
          (flmLoop c c 0 c.length 0 c.length).2.2).1,
        (extendBack c c 0 0 (flmLoop c c 0 c.length 0 c.length).1
          (flmLoop c c 0 c.length 0 c.length).2.1
          (flmLoop c c 0 c.length 0 c.length).2.2).2.1,
        extendFwd c c c.length c.length
          (extendBack c c 0 0 (flmLoop c c 0 c.length 0 c.length).1
            (flmLoop c c 0 c.length 0 c.length).2.1
            (flmLoop c c 0 c.length 0 c.length).2.2).1
          (extendBack c c 0 0 (flmLoop c c 0 c.length 0 c.length).1
            (flmLoop c c 0 c.length 0 c.length).2.1
            (flmLoop c c 0 c.length 0 c.length).2.2).2.1
          (extendBack c c 0 0 (flmLoop c c 0 c.length 0 c.length).1
            (flmLoop c c 0 c.length 0 c.length).2.1
            (flmLoop c c 0 c.length 0 c.length).2.2).2.2) := rfl
  rw [e1, hext]
  have e2 : extendFwd c c c.length c.length (0, 0,
      (flmLoop c c 0 c.length 0 c.length).1 + (flmLoop c c 0 c.length 0 c.length).2.2).1
      (0, 0, (flmLoop c c 0 c.length 0 c.length).1 +
        (flmLoop c c 0 c.length 0 c.length).2.2).2.1
      (0, 0, (flmLoop c c 0 c.length 0 c.length).1 +
        (flmLoop c c 0 c.length 0 c.length).2.2).2.2 = c.length :=
    extendFwd_self c (c.length - ((flmLoop c c 0 c.length 0 c.length).1 +
      (flmLoop c c 0 c.length 0 c.length).2.2)) _ rfl hle
  rw [e2]

theorem matchingBlocksRec_self (c : List Int) :
    matchingBlocksRec c c 0 c.length 0 c.length =
      if c.length = 0 then [] else [(0, 0, c.length)] := by
  by_cases hn : c.length = 0
  · rw [if_pos hn]
    apply matchingBlocksRec_nil
    rw [find_longest_match_self]
    exact hn
  · rw [if_neg hn]
    rw [matchingBlocksRec_eq c c 0 c.length 0 c.length 0 0 c.length
      (find_longest_match_self c) hn
      ⟨le_refl 0, le_refl 0, by omega, by omega⟩]
    rw [if_neg (by omega), if_neg (by omega)]
    simp

theorem get_matching_blocks_self (c : List Int) :
    get_matching_blocks c c =
      (if c.length = 0 then [] else [(0, 0, c.length)]) ++ [(c.length, c.length, 0)] := by
  unfold get_matching_blocks
  rw [matchingBlocksRec_self]
  by_cases hn : c.length = 0
  · rw [if_pos hn]
    rfl
  · rw [if_neg hn]
    have h1 : collapseGo (0, 0, 0) [(0, 0, c.length)] = [(0, 0, c.length)] := by
      show (if 0 + c.length ≠ 0 then [((0 : Nat), (0 : Nat), 0 + c.length)] else []) =
        [(0, 0, c.length)]
      rw [if_pos (show 0 + c.length ≠ 0 by omega), Nat.zero_add]
    rw [h1]

theorem get_match_info_self (c : List Int) (m : Nat) (h : m ≤ c.length ∨ c.length = 0) :
    get_match_info c c m =
      if c.length = 0 then ([(0, 0)], [(0, 0)])
      else ([(0, c.length), (c.length, c.length)],
        [(0, c.length), (c.length, c.length)]) := by
  unfold get_match_info
  rw [get_matching_blocks_self]
  by_cases hn : c.length = 0
  · rw [if_pos hn, if_pos hn, hn]
    rfl
  · rw [if_neg hn, if_neg hn]
    have hm : m ≤ c.length := h.resolve_right hn
    show (List.map _ (List.filter (fun x => decide (m ≤ x.2.2))
        (([(0, 0, c.length)] ++ [(c.length, c.length, 0)]).dropLast) ++
        [([(0, 0, c.length)] ++ [(c.length, c.length, 0)]).getLastD
          (c.length, c.length, 0)]),
      List.map _ (List.filter (fun x => decide (m ≤ x.2.2))
        (([(0, 0, c.length)] ++ [(c.length, c.length, 0)]).dropLast) ++
        [([(0, 0, c.length)] ++ [(c.length, c.length, 0)]).getLastD
          (c.length, c.length, 0)])) = _
    have hfil : List.filter (fun x => decide (m ≤ x.2.2))
        (([(0, 0, c.length)] ++ [(c.length, c.length, 0)]).dropLast) =
        [(0, 0, c.length)] := by
      show List.filter (fun x => decide (m ≤ x.2.2)) [(0, 0, c.length)] = _
      rw [List.filter_cons_of_pos (by simpa using hm)]
      rfl
    rw [hfil]
    show ([(0, 0 + c.length), (c.length, c.length + 0)],
      [(0, 0 + c.length), (c.length, c.length + 0)]) = _
    rw [Nat.zero_add, Nat.add_zero]

theorem cms_self_pos (c : List Int) :
    complete_modification_spans [(0, c.length), (c.length, c.length)] c.length =
      [(0, 0), (0, c.length), (c.length, c.length), (c.length, c.length)] := rfl

theorem cms_self_zero :
    complete_modification_spans [((0 : Nat), (0 : Nat))] 0 = [(0, 0), (0, 0)] := rfl

theorem generate_modification_mapping_self (c : List Int) (m : Nat)
    (h : m ≤ c.length ∨ c.length = 0) :
    generate_modification_mapping c c m = [] := by
  unfold generate_modification_mapping
  rw [get_match_info_self c m h]
  by_cases hn : c.length = 0
  · rw [if_pos hn, hn]
    rfl
  · rw [if_neg hn]
    show generate_modification_mapping_impl
      (complete_modification_spans [(0, c.length), (c.length, c.length)] c.length)
      (complete_modification_spans [(0, c.length), (c.length, c.length)] c.length) = []
    rw [cms_self_pos]
    unfold generate_modification_mapping_impl
    rw [List.filterMap_eq_nil_iff]
    intro p hp
    have henum : (List.zip
        [((0 : Nat), (0 : Nat)), (0, c.length), (c.length, c.length),
          (c.length, c.length)]
        [((0 : Nat), (0 : Nat)), (0, c.length), (c.length, c.length),
          (c.length, c.length)]).enum =
        [(0, ((0, 0), (0, 0))), (1, ((0, c.length), (0, c.length))),
          (2, ((c.length, c.length), (c.length, c.length))),
          (3, ((c.length, c.length), (c.length, c.length)))] := rfl
    rw [henum] at hp
    simp only [List.mem_cons, List.not_mem_nil, or_false] at hp
    rcases hp with rfl | rfl | rfl | rfl <;> simp [span_not_empty]

/-- C6 amended: for any sequence `a` and any `min_match_size ≤ len(a)` (or
`a` empty), aligning `a` with itself yields only empty modified spans, the
matched token positions are exactly `range(len(a))`, and
`get_diff_ids(a, a)` returns two empty position lists.  (For
`0 < len(a) < min_match_size` this FAILS — see `C6_counterexample` — since
the only real matched block is discarded by the size filter.) -/
theorem C6_self_diff (c : List Int) (m : Nat) (h : m ≤ c.length ∨ c.length = 0) :
    (∀ t s, (complete_modification_spans (get_match_info c c m).1 c.length).get?
        (2 * t) = some s → s.1 = s.2) ∧
    spans2ids (get_match_info c c m).1 = List.range c.length ∧
    get_diff_ids c c m = ([], []) := by
  have hmap := generate_modification_mapping_self c m h
  have hdiff : get_diff_ids c c m = ([], []) := by
    unfold get_diff_ids
    rw [hmap]
    simp [sortedSet, spans2ids]
  rw [get_match_info_self c m h]
  by_cases hn : c.length = 0
  · rw [if_pos hn, hn]
    refine ⟨?_, rfl, hdiff⟩
    show ∀ t s, (([((0 : Nat), (0 : Nat)), (0, 0)] : List (Nat × Nat)).get? (2 * t)) =
      some s → s.1 = s.2
    intro t s hs
    rcases t with _ | t
    · obtain rfl := (Option.some.inj hs).symm
      rfl
    · have hnone : (([((0 : Nat), (0 : Nat)), (0, 0)] : List (Nat × Nat)).get?
          (2 * (t + 1))) = none :=
        List.get?_eq_none.2 (by show 2 ≤ 2 * (t + 1); omega)
      rw [hnone] at hs
      exact Option.noConfusion hs
  · rw [if_neg hn]
    refine ⟨?_, ?_, hdiff⟩
    · show ∀ t s, (([((0 : Nat), (0 : Nat)), (0, c.length), (c.length, c.length),
          (c.length, c.length)] : List (Nat × Nat)).get? (2 * t)) = some s → s.1 = s.2
      intro t s hs
      rcases t with _ | t
      · obtain rfl := (Option.some.inj hs).symm
        rfl
      rcases t with _ | t
      · obtain rfl := (Option.some.inj hs).symm
        rfl
      · have hnone : (([((0 : Nat), (0 : Nat)), (0, c.length), (c.length, c.length),
            (c.length, c.length)] : List (Nat × Nat)).get? (2 * (t + 1 + 1))) = none :=
          List.get?_eq_none.2 (by show 4 ≤ 2 * (t + 1 + 1); omega)
        rw [hnone] at hs
        exact Option.noConfusion hs
    · show spans2ids [(0, c.length), (c.length, c.length)] = List.range c.length
      unfold spans2ids
      simp only [List.foldl_cons, List.foldl_nil, List.nil_append, Nat.sub_zero,
        Nat.sub_self, List.range'_zero, List.append_nil]
      rw [List.range_eq_range']

/-- Witness for C6 at `a = [1, 2, 3]`, `min_match_size = 3`. -/
theorem C6_self_diff_witness :
    ((3 : Nat) ≤ ([(1 : Int), 2, 3] : List Int).length ∨
      ([(1 : Int), 2, 3] : List Int).length = 0) ∧
    spans2ids (get_match_info [(1 : Int), 2, 3] [(1 : Int), 2, 3] 3).1 =
      List.range ([(1 : Int), 2, 3] : List Int).length ∧
    get_diff_ids [(1 : Int), 2, 3] [(1 : Int), 2, 3] 3 = ([], []) :=
  ⟨Or.inl (by decide),
    (C6_self_diff [1, 2, 3] 3 (Or.inl (by decide))).2.1,
    (C6_self_diff [1, 2, 3] 3 (Or.inl (by decide))).2.2⟩

/-- C6 counterexample: for `a = [1, 2]` and the system's
`min_match_size = 3`, the unique matched block `(0, 0, 2)` is shorter than
3 and is discarded, so the whole sequence becomes one modified span and
`get_diff_ids(a, a, 3) = ([0, 1], [0, 1]) ≠ ([], [])`. -/
theorem C6_counterexample :
    get_diff_ids [(1 : Int), 2] [(1 : Int), 2] 3 = ([0, 1], [0, 1]) ∧
    get_diff_ids [(1 : Int), 2] [(1 : Int), 2] 3 ≠ ([], []) := by
  have hmb : get_matching_blocks [(1 : Int), 2] [(1 : Int), 2] =
      [(0, 0, 2), (2, 2, 0)] := by
    rw [get_matching_blocks_self]
    rfl
  have hmi : get_match_info [(1 : Int), 2] [(1 : Int), 2] 3 = ([(2, 2)], [(2, 2)]) := by
    unfold get_match_info
    rw [hmb]
    rfl
  have hmap : generate_modification_mapping [(1 : Int), 2] [(1 : Int), 2] 3 =
      [((0, 2), (0, 2))] := by
    unfold generate_modification_mapping
    rw [hmi]
    rfl
  have heq : get_diff_ids [(1 : Int), 2] [(1 : Int), 2] 3 = ([0, 1], [0, 1]) := by
    unfold get_diff_ids
    rw [hmap]
    show (sortedSet (spans2ids [(0, 2)]), sortedSet (spans2ids [(0, 2)])) = _
    have hss : sortedSet (spans2ids [(0, 2)]) = [0, 1] := by
      show List.mergeSort (([0, 1] : List Nat).dedup) (fun x y => decide (x ≤ y)) =
        [0, 1]
      rw [show (([0, 1] : List Nat).dedup) = [0, 1] from rfl]
      exact List.mergeSort_eq_self (by decide)
    rw [hss]
  exact ⟨heq, by rw [heq]; decide⟩

end DAMA
